import Mathlib

/-! # Shogun: CustomKernel, LinearHMM and LatentFeatures

A shallow embedding of

* `src/kernel/CustomKernel.h`: the inline lookup `CCustomKernel::compute`,
* `src/distributions/hmm/LinearHMM.cpp`: both `train` overloads, the likelihood
  functions, `get_log_derivative`, `set_hist` and `set_log_hist`,
* `src/shogun/features/LatentFeatures.cpp`: `get_num_vectors` and `get_sample`,

followed by theorems about them.

Conventions of the embedding

* C arrays are lists. Every read and write is bounds checked; an access outside the
  array (undefined behaviour in C) is the fault `Fault.out_of_bounds`, a failed `assert`
  is `Fault.assertion`, an integer division by zero is `Fault.div_by_zero`.
* `INT` values that may be negative (kernel indices, the training index list, example
  and parameter numbers) are `Int`, and C's `/` on them is `Int.tdiv` (truncation toward
  zero). Dimensions (`sequence_length`, `num_symbols`) and `WORD` symbols are `Nat`; the
  cast `(WORD) j` is `j % 65536`. `INT` arithmetic is taken without wrap-around: a
  histogram cell counts at most `num_indizes` examples, itself an `INT`.
* `REAL` is idealised as a field `R` (the rationals or the reals in the worked examples);
  the C library functions `log` and `exp` are parameters of the operations that call
  them, and no property of them is assumed: what is proved of a table of logarithms is
  that each entry is the library function applied to the stored value. Statements whose
  truth depends on the rounding of double arithmetic (an exact sum of quotients, `log`
  and `exp` undoing each other) are outside this embedding.
* `CWordFeatures` is a collaborator outside the source tree: its data and its
  `get_masked_symbols` are parameters.
* The macros `ASSERT` and `SG_ERROR` and the dynamic array behind `CLatentFeatures` are
  outside the source tree as well; an error they report is `Fault.assertion`
  respectively `Fault.sg_error`, and the sample type is a parameter.
-/

namespace Shogun

/-! ## Faults and checked memory access -/

/-- Ways in which an operation can fail to produce a value. -/
inductive Fault where
  /-- A failed `assert`. -/
  | assertion
  /-- A read or write outside an array, or through a null table pointer. -/
  | out_of_bounds
  /-- An integer division by zero. -/
  | div_by_zero
  /-- An error reported to the caller through `SG_ERROR`. -/
  | sg_error
deriving DecidableEq, Repr

/-- Checked read `a[i]` with a natural index. -/
def rdN {α : Type} (a : List α) (i : Nat) : Except Fault α :=
  match a[i]? with
  | some x => .ok x
  | none => .error .out_of_bounds

/-- Checked read `a[i]` with a C `int` index. -/
def rd {α : Type} (a : List α) (i : Int) : Except Fault α :=
  if 0 ≤ i then rdN a i.toNat else .error .out_of_bounds

/-- Checked write `a[i] = x`. -/
def wrN {α : Type} (a : List α) (i : Nat) (x : α) : Except Fault (List α) :=
  if i < a.length then .ok (a.set i x) else .error .out_of_bounds

/-- The loop `for (i = start; i < start + count; i++) body`, threading the state. -/
def forLoop {σ : Type} (body : Nat → σ → Except Fault σ) : Nat → Nat → σ → Except Fault σ
  | _, 0, s => .ok s
  | i, n + 1, s =>
    match body i s with
    | .ok s' => forLoop body (i + 1) n s'
    | .error e => .error e

/-- C's `a / b` on `int`. -/
def cdiv (a b : Int) : Except Fault Int :=
  if b = 0 then .error .div_by_zero else .ok (Int.tdiv a b)

/-! ## CustomKernel -/

/-- The two data members of `CCustomKernel`. -/
structure CCustomKernel (R : Type) where
  /-- `SHORTREAL* kmatrix`. -/
  kmatrix : List R
  /-- `INT num_cols`. -/
  num_cols : Int

/-- The subscript that `compute(idx_a, idx_b)` applies to `kmatrix`
(`CustomKernel.h`, lines 55 to 58). -/
def CCustomKernel.address (num_cols idx_a idx_b : Int) : Int :=
  if idx_a < idx_b then
    idx_a * num_cols - Int.tdiv (idx_b * (idx_b + 1)) 2
  else
    idx_b * num_cols - Int.tdiv (idx_a * (idx_a + 1)) 2

/-- The lookup `CCustomKernel::compute`. -/
def CCustomKernel.compute {R : Type} (k : CCustomKernel R) (idx_a idx_b : Int) :
    Except Fault R :=
  rd k.kmatrix (CCustomKernel.address k.num_cols idx_a idx_b)

/-! ## The feature source consulted by LinearHMM -/

/-- The part of `CWordFeatures` that `CLinearHMM` consults. The class is a collaborator
outside the source tree, so its data and its symbol masking are parameters. -/
structure CWordFeatures where
  /-- The stored examples; `get_num_vectors()` is the number of them. -/
  feature_matrix : List (List Nat)
  /-- `get_num_features()`. -/
  num_features : Nat
  /-- `get_num_symbols()`. -/
  num_symbols : Nat
  /-- `get_original_num_symbols()`. -/
  original_num_symbols : Nat
  /-- `get_masked_symbols(symbol, mask)`. -/
  get_masked_symbols : Nat → Nat → Nat

/-- The call `get_num_vectors()`. -/
def CWordFeatures.get_num_vectors (f : CWordFeatures) : Int :=
  f.feature_matrix.length

/-- The call `get_feature_vector(num, len, to_free)`: the vector, whose length is `len`. -/
def CWordFeatures.get_feature_vector (f : CWordFeatures) (num : Int) :
    Except Fault (List Nat) :=
  rd f.feature_matrix num

/-- The call `get_masked_symbols((WORD) j, (BYTE) 254)` of the training loops; the cast
to the 16-bit `WORD` is the reduction modulo `65536`. -/
def CWordFeatures.base (f : CWordFeatures) (j : Nat) : Nat :=
  f.get_masked_symbols (j % 65536) 254

/-! ## LinearHMM: state and training -/

/-- The data members of `CLinearHMM`. A table is `none` when there is no array behind
the pointer (null, or deleted). `num_params` is not stored separately: both
constructors set it to `sequence_length * num_symbols` and nothing else assigns it. -/
structure CLinearHMM (R : Type) where
  /-- `INT sequence_length`. -/
  sequence_length : Nat
  /-- `INT num_symbols`. -/
  num_symbols : Nat
  /-- `REAL* hist`. -/
  hist : Option (List R)
  /-- `REAL* log_hist`. -/
  log_hist : Option (List R)
  /-- `REAL pseudo_count`, read by the parameterless `train()`. -/
  pseudo_count : R
  /-- `CWordFeatures* features`. -/
  features : CWordFeatures

/-- The member `num_params`. -/
def CLinearHMM.num_params {R : Type} (h : CLinearHMM R) : Nat :=
  h.sequence_length * h.num_symbols

/-- The constructor `CLinearHMM(CWordFeatures* f)` (lines 8 to 13); the member
`pseudo_count`, which it leaves unset, is a parameter. -/
def CLinearHMM.create {R : Type} (f : CWordFeatures) (pseudo_count : R) : CLinearHMM R :=
  { sequence_length := f.num_features, num_symbols := f.num_symbols,
    hist := none, log_hist := none, pseudo_count := pseudo_count, features := f }

/-- Dereferencing a table pointer. -/
def table {R : Type} (t : Option (List R)) : Except Fault (List R) :=
  match t with
  | some a => .ok a
  | none => .error .out_of_bounds

/-- One pass of `int_hist[feat*num_symbols+vector[feat]]++` (lines 51 and 106). -/
def count_step (num_symbols : Nat) (vector : List Nat) (feat : Nat) (int_hist : List Int) :
    Except Fault (List Int) :=
  match rdN vector feat with
  | .error e => .error e
  | .ok sym =>
    match rdN int_hist (feat * num_symbols + sym) with
    | .error e => .error e
    | .ok c => wrN int_hist (feat * num_symbols + sym) (c + 1)

/-- The loop `for (feat=0; feat<len; feat++)` over one example (lines 50-51, 105-106). -/
def count_vector (num_symbols : Nat) (vector : List Nat) (len : Nat) (int_hist : List Int) :
    Except Fault (List Int) :=
  forLoop (count_step num_symbols vector) 0 len int_hist

/-- The loop over `k` that accumulates `sum` (lines 67-71 and 122-126). -/
def masked_sum {R : Type} [Field R] (f : CWordFeatures) (num_symbols : Nat)
    (int_hist : List Int) (i j : Nat) : Except Fault R :=
  forLoop (fun k sum =>
    match rdN int_hist (i * num_symbols + f.base j + k) with
    | .error e => .error e
    | .ok c => .ok (sum + (c : R))) 0 f.original_num_symbols 0

/-- The body of the loop over `j` (lines 67-74 and 122-129): the pair is
`(hist, log_hist)`. -/
def normalise_entry {R : Type} [Field R] (lg : R → R) (f : CWordFeatures)
    (num_symbols : Nat) (pseudo_count : R) (int_hist : List Int) (i j : Nat)
    (t : List R × List R) : Except Fault (List R × List R) :=
  match masked_sum f num_symbols int_hist i j with
  | .error e => .error e
  | .ok sum =>
    match rdN int_hist (i * num_symbols + j) with
    | .error e => .error e
    | .ok c =>
      match wrN t.1 (i * num_symbols + j)
          (((c : R) + pseudo_count) / (sum + (f.original_num_symbols : R) * pseudo_count)) with
      | .error e => .error e
      | .ok hist =>
        match rdN hist (i * num_symbols + j) with
        | .error e => .error e
        | .ok x =>
          match wrN t.2 (i * num_symbols + j) (lg x) with
          | .error e => .error e
          | .ok log_hist => .ok (hist, log_hist)

/-- The two nested loops that fill `hist` and `log_hist` (lines 57-76 and 112-131); the
freshly allocated tables are modelled as zero filled, every entry is written before
it is read. -/
def normalise {R : Type} [Field R] (lg : R → R) (f : CWordFeatures)
    (sequence_length num_symbols : Nat) (pseudo_count : R) (int_hist : List Int) :
    Except Fault (List R × List R) :=
  forLoop (fun i t =>
      forLoop (normalise_entry lg f num_symbols pseudo_count int_hist i) 0 num_symbols t)
    0 sequence_length
    (List.replicate (sequence_length * num_symbols) 0,
     List.replicate (sequence_length * num_symbols) 0)

/-- The body of the loop over `vec` in `train(indizes, num_indizes, pseudo_count)`
(lines 97-108). -/
def count_selected (f : CWordFeatures) (num_symbols : Nat) (indizes : List Int) (vec : Nat)
    (int_hist : List Int) : Except Fault (List Int) :=
  match rdN indizes vec with
  | .error e => .error e
  | .ok idx =>
    if 0 ≤ idx ∧ idx < f.get_num_vectors then
      match f.get_feature_vector idx with
      | .error e => .error e
      | .ok vector => count_vector num_symbols vector vector.length int_hist
    else .error .assertion

/-- The body of the loop over `vec` in the parameterless `train()` (lines 43-53). -/
def count_all (f : CWordFeatures) (num_symbols : Nat) (vec : Nat) (int_hist : List Int) :
    Except Fault (List Int) :=
  match f.get_feature_vector vec with
  | .error e => .error e
  | .ok vector => count_vector num_symbols vector vector.length int_hist

/-- Both `train` overloads start with `delete[] hist; delete[] log_hist;`. -/
def CLinearHMM.delete_tables {R : Type} (h : CLinearHMM R) : CLinearHMM R :=
  { h with hist := none, log_hist := none }

/-- The function `CLinearHMM::train(const INT* indizes, INT num_indizes, REAL pseudo_count)`
(lines 82 to 135). A fault is returned together with the object as the fault leaves it. -/
def CLinearHMM.train {R : Type} [Field R] (lg : R → R) (h : CLinearHMM R)
    (indizes : List Int) (num_indizes : Nat) (pseudo_count : R) :
    Except (Fault × CLinearHMM R) (CLinearHMM R) :=
  let h0 := h.delete_tables
  match forLoop (count_selected h.features h.num_symbols indizes) 0 num_indizes
      (List.replicate h.num_params 0) with
  | .error e => .error (e, h0)
  | .ok int_hist =>
    match normalise lg h.features h.sequence_length h.num_symbols pseudo_count int_hist with
    | .error e => .error (e, h0)
    | .ok t => .ok { h0 with hist := some t.1, log_hist := some t.2 }

/-- The parameterless `CLinearHMM::train()` (lines 28 to 80). -/
def CLinearHMM.train_all {R : Type} [Field R] (lg : R → R) (h : CLinearHMM R) :
    Except (Fault × CLinearHMM R) (CLinearHMM R) :=
  let h0 := h.delete_tables
  match forLoop (count_all h.features h.num_symbols) 0 h.features.get_num_vectors.toNat
      (List.replicate h.num_params 0) with
  | .error e => .error (e, h0)
  | .ok int_hist =>
    match normalise lg h.features h.sequence_length h.num_symbols h.pseudo_count int_hist with
    | .error e => .error (e, h0)
    | .ok t => .ok { h0 with hist := some t.1, log_hist := some t.2 }

/-! ## LinearHMM: likelihoods, derivative, table setters -/

/-- The loop body `result op= tbl[i*num_symbols+vector[i]]` shared by the likelihood
functions (lines 142, 154 and 164). -/
def accumulate_step {R : Type} (op : R → R → R) (tbl : List R) (num_symbols : Nat)
    (vector : List Nat) (i : Nat) (result : R) : Except Fault R :=
  match rdN vector i with
  | .error e => .error e
  | .ok sym =>
    match rdN tbl (i * num_symbols + sym) with
    | .error e => .error e
    | .ok x => .ok (op result x)

/-- The shape shared by the three likelihood functions:
`result = tbl[vector[0]]; for (i=1; i<len; i++) result op= tbl[i*num_symbols+vector[i]];`. -/
def accumulate {R : Type} (op : R → R → R) (tbl : Option (List R)) (num_symbols : Nat)
    (vector : List Nat) (len : Nat) : Except Fault R :=
  match table tbl with
  | .error e => .error e
  | .ok a =>
    match rdN vector 0 with
    | .error e => .error e
    | .ok sym =>
      match rdN a sym with
      | .error e => .error e
      | .ok result => forLoop (accumulate_step op a num_symbols vector) 1 (len - 1) result

/-- The function `get_log_likelihood_example(WORD* vector, INT len)` (lines 137 to 145). -/
def CLinearHMM.get_log_likelihood_example {R : Type} [Field R] (h : CLinearHMM R)
    (vector : List Nat) (len : Nat) : Except Fault R :=
  accumulate (fun result x => result + x) h.log_hist h.num_symbols vector len

/-- The function `get_log_likelihood_example(INT num_example)` (lines 147 to 157): the
vector and its length come from the feature source. -/
def CLinearHMM.get_log_likelihood_example_at {R : Type} [Field R] (h : CLinearHMM R)
    (num_example : Int) : Except Fault R :=
  match h.features.get_feature_vector num_example with
  | .error e => .error e
  | .ok vector =>
    accumulate (fun result x => result + x) h.log_hist h.num_symbols vector vector.length

/-- The function `get_likelihood_example(WORD* vector, INT len)` (lines 159 to 167). -/
def CLinearHMM.get_likelihood_example {R : Type} [Field R] (h : CLinearHMM R)
    (vector : List Nat) (len : Nat) : Except Fault R :=
  accumulate (fun result x => result * x) h.hist h.num_symbols vector len

/-- The function `get_log_derivative(INT param_num, INT num_example)` (lines 169 to 181). -/
def CLinearHMM.get_log_derivative {R : Type} [Field R] (h : CLinearHMM R)
    (param_num num_example : Int) : Except Fault R :=
  match h.features.get_feature_vector num_example with
  | .error e => .error e
  | .ok vector =>
    match cdiv param_num h.num_symbols with
    | .error e => .error e
    | .ok position =>
      match rd vector position with
      | .error e => .error e
      | .ok sym =>
        match cdiv param_num position with
        | .error e => .error e
        | .ok q =>
          if (sym : Int) = q then
            match table h.hist with
            | .error e => .error e
            | .ok hist =>
              match rd hist param_num with
              | .error e => .error e
              | .ok x => .ok (1 / x)
          else .ok 0

/-- The loop body shared by `set_log_hist` and `set_hist` (lines 193-194 and 208-209):
`first[i] = new_values[i]; second[i] = g(first[i]);`. -/
def install_step {R : Type} (g : R → R) (new_values : List R) (i : Nat)
    (t : List R × List R) : Except Fault (List R × List R) :=
  match rdN new_values i with
  | .error e => .error e
  | .ok x =>
    match wrN t.1 i x with
    | .error e => .error e
    | .ok first =>
      match rdN first i with
      | .error e => .error e
      | .ok y =>
        match wrN t.2 i (g y) with
        | .error e => .error e
        | .ok second => .ok (first, second)

/-- The lazy allocation `if (!tbl) tbl = new REAL[num_params];`; a fresh array is
modelled as zero filled. -/
def allocate_if_null {R : Type} [Field R] (tbl : Option (List R)) (num_params : Nat) :
    List R :=
  match tbl with
  | some a => a
  | none => List.replicate num_params 0

/-- The function `set_log_hist(REAL* new_log_hist)` (lines 183 to 196); `ex` is `exp`. -/
def CLinearHMM.set_log_hist {R : Type} [Field R] (ex : R → R) (h : CLinearHMM R)
    (new_log_hist : List R) : Except Fault (CLinearHMM R) :=
  match forLoop (install_step ex new_log_hist) 0 h.num_params
      (allocate_if_null h.log_hist h.num_params, allocate_if_null h.hist h.num_params) with
  | .error e => .error e
  | .ok t => .ok { h with log_hist := some t.1, hist := some t.2 }

/-- The function `set_hist(REAL* new_hist)` (lines 198 to 211); `lg` is `log`. -/
def CLinearHMM.set_hist {R : Type} [Field R] (lg : R → R) (h : CLinearHMM R)
    (new_hist : List R) : Except Fault (CLinearHMM R) :=
  match forLoop (install_step lg new_hist) 0 h.num_params
      (allocate_if_null h.hist h.num_params, allocate_if_null h.log_hist h.num_params) with
  | .error e => .error e
  | .ok t => .ok { h with hist := some t.1, log_hist := some t.2 }

/-! ## LatentFeatures -/

/-- The data member of `CLatentFeatures`: `m_samples`, null after the default constructor
and otherwise the dynamic array of the samples held. The container never looks inside a
sample, so the sample type is a parameter. -/
structure CLatentFeatures (D : Type) where
  /-- `CDynamicObjectArray<CLatentData>* m_samples`. -/
  m_samples : Option (List D)

/-- The function `CLatentFeatures::get_num_vectors` (lines 49 to 55). -/
def CLatentFeatures.get_num_vectors {D : Type} (lf : CLatentFeatures D) : Int :=
  match lf.m_samples with
  | none => 0
  | some a => a.length

/-- Modelled from the spec: the macro `ASSERT`, defined outside the source tree. A
condition that does not hold is an error reported at the call boundary; control does
not continue past it. -/
def ASSERT (condition : Bool) : Except Fault Unit :=
  if condition then .ok () else .error .assertion

/-- Modelled from the spec: the macro `SG_ERROR`, defined outside the source tree.
Out-of-range sample access "is an error, not undefined behavior" and "surfaces
immediately to the caller": the macro leaves the function with a fault and does not
fall through to the next statement. -/
def SG_ERROR {α : Type} : Except Fault α :=
  .error .sg_error

/-- Modelled from the spec: `CDynamicObjectArray::get_element`, defined outside the source
tree: the unchecked read of the underlying array through the `m_samples` pointer. -/
def get_element {D : Type} (m_samples : Option (List D)) (idx : Int) : Except Fault D :=
  match m_samples with
  | none => .error .out_of_bounds
  | some a => rd a idx

/-- The function `CLatentFeatures::get_sample` (lines 69 to 77). -/
def CLatentFeatures.get_sample {D : Type} (lf : CLatentFeatures D) (idx : Int) :
    Except Fault D :=
  match ASSERT lf.m_samples.isSome with
  | .error e => .error e
  | .ok _ =>
    match (if idx < 0 ∨ idx ≥ lf.get_num_vectors then SG_ERROR else .ok ()) with
    | .error e => .error e
    | .ok _ => get_element lf.m_samples idx

/-! ## Specification-side notions -/

/-- Modelled from the spec: the flattened upper triangle of an `n` by `n` matrix, row by
row, diagonal included (`M[0][0..n-1], M[1][1..n-1], ..., M[n-1][n-1]`), the array that
`set_kernel_matrix_diag` is handed. The bodies of `set_kernel_matrix_diag` and
`set_kernel_matrix` are only declared in `CustomKernel.h`. -/
def upper_triangle {R : Type} (n : Nat) (M : Nat → Nat → R) : List R :=
  (List.range n).flatMap (fun i => (List.range (n - i)).map (fun d => M i (i + d)))

/-- Modelled from the spec: the kernel object after `set_kernel_matrix_diag` (or
`set_kernel_matrix`, which repacks a square matrix) has installed the symmetric matrix
`M` of dimension `n`: `kmatrix` is the flattened upper triangle, `num_cols = n`. -/
def packed_kernel {R : Type} (n : Nat) (M : Nat → Nat → R) : CCustomKernel R :=
  { kmatrix := upper_triangle n M, num_cols := n }

/-- The examples picked by an index list, in order and with multiplicity. -/
def selected (f : CWordFeatures) (indizes : List Int) : List (List Nat) :=
  indizes.map (fun i => f.feature_matrix.getD i.toNat [])

/-- The number of picked examples that have symbol `sym` at position `pos`. -/
def count (f : CWordFeatures) (indizes : List Int) (pos sym : Nat) : Nat :=
  (selected f indizes).countP (fun v => decide (v[pos]? = some sym))

/-- The number of positions of the vector `v` whose histogram cell
`feat * ns + v[feat]` is the cell `m`. -/
def hits (ns : Nat) (v : List Nat) (m : Nat) : Nat :=
  (List.range v.length).countP (fun feat => decide (feat * ns + v.getD feat 0 = m))

/-- Every histogram cell `feat * ns + v[feat]` of the vector `v` lies inside a histogram
of `len` cells. -/
def fits (ns len : Nat) (v : List Nat) : Prop :=
  ∀ feat, feat < v.length → feat * ns + v.getD feat 0 < len

/-- Every stored vector has at most `seq` entries, each a symbol below `ns`. -/
def CWordFeatures.in_range (f : CWordFeatures) (seq ns : Nat) : Prop :=
  ∀ v ∈ f.feature_matrix, v.length ≤ seq ∧ ∀ s ∈ v, s < ns

/-- Every index of the list addresses a stored vector. -/
def CWordFeatures.valid_indices (f : CWordFeatures) (indizes : List Int) : Prop :=
  ∀ i ∈ indizes, 0 ≤ i ∧ i < f.get_num_vectors

/-- Every span of `original_num_symbols` symbols that starts at a masked base lies
inside the alphabet of `ns` symbols. -/
def CWordFeatures.span_in_alphabet (f : CWordFeatures) (ns : Nat) : Prop :=
  ∀ j, j < ns → ∀ k, k < f.original_num_symbols → f.base j + k < ns

/-- The index list `0, 1, ..., n-1` over all `n` stored vectors. -/
def CWordFeatures.all_indices (f : CWordFeatures) : List Int :=
  (List.range f.feature_matrix.length).map Int.ofNat

/-- The value that training stores for one `(position, symbol)` pair, from the integer
histogram: `(int_hist[i*ns+j] + pseudo_count) / (sum + original_num_symbols*pseudo_count)`
with `sum` taken over the span of `j`. -/
def normalised {R : Type} [Field R] (f : CWordFeatures) (ns : Nat) (pseudo_count : R)
    (int_hist : List Int) (i j : Nat) : R :=
  ((int_hist.getD (i * ns + j) 0 : Int) + pseudo_count) /
    (((List.range f.original_num_symbols).map
        (fun k => ((int_hist.getD (i * ns + f.base j + k) 0 : Int) : R))).sum +
      (f.original_num_symbols : R) * pseudo_count)

/-- Entry `m` of both tables has been filled by the normalisation loops, all the reads
behind it having stayed inside `int_hist`. -/
def filled {R : Type} [Field R] (lg : R → R) (f : CWordFeatures) (ns : Nat)
    (pseudo_count : R) (int_hist : List Int) (t : List R × List R) (m : Nat) : Prop :=
  (∀ k, k < f.original_num_symbols →
      (m / ns) * ns + f.base (m % ns) + k < int_hist.length) ∧
    m < int_hist.length ∧
    t.1[m]? = some (normalised f ns pseudo_count int_hist (m / ns) (m % ns)) ∧
    t.2[m]? = some (lg (normalised f ns pseudo_count int_hist (m / ns) (m % ns)))

/-- Both tables are present and, entry by entry below `num_params`, `log_hist[i]` is
`lg` of `hist[i]`. -/
def paired {R : Type} (lg : R → R) (num_params : Nat) (h : CLinearHMM R) : Prop :=
  ∃ hs ls, h.hist = some hs ∧ h.log_hist = some ls ∧
    ∀ i, i < num_params → ∃ x, hs[i]? = some x ∧ ls[i]? = some (lg x)

/-- A table that is present has room for `num_params` entries. -/
def tables_sized {R : Type} (h : CLinearHMM R) : Prop :=
  (∀ a, h.hist = some a → h.num_params ≤ a.length) ∧
    ∀ a, h.log_hist = some a → h.num_params ≤ a.length

/-! ## Worked examples -/

/-- A feature source with the single example `[0]` over a two-letter alphabet, sequence
length one; masking clears the one bit that encodes the letter. -/
def single_example : CWordFeatures :=
  { feature_matrix := [[0]], num_features := 1, num_symbols := 2,
    original_num_symbols := 2, get_masked_symbols := fun s _ => s / 2 * 2 }

/-- A feature source with the two examples `[0]` and `[1]` over a two-letter alphabet,
sequence length one; masking clears the one bit that encodes the letter. -/
def two_examples : CWordFeatures :=
  { feature_matrix := [[0], [1]], num_features := 1, num_symbols := 2,
    original_num_symbols := 2, get_masked_symbols := fun s _ => s / 2 * 2 }

/-- An HMM over two positions and two symbols, with the single example `[0, 0]` behind
it and the given tables installed. -/
def two_by_two {R : Type} (hist log_hist : Option (List R)) (pseudo_count : R) :
    CLinearHMM R :=
  { sequence_length := 2, num_symbols := 2,
    hist := hist, log_hist := log_hist, pseudo_count := pseudo_count,
    features := { feature_matrix := [[0, 0]], num_features := 2, num_symbols := 2,
                  original_num_symbols := 2, get_masked_symbols := fun s _ => s / 2 * 2 } }

/-- An HMM over two positions and two symbols whose `log_hist` is `[1, 2, 3, 4]`, with
the single example `[0, 1]` behind it. -/
def tabled_hmm : CLinearHMM ℚ :=
  { sequence_length := 2, num_symbols := 2,
    hist := none, log_hist := some [1, 2, 3, 4], pseudo_count := 1,
    features := { feature_matrix := [[0, 1]], num_features := 2, num_symbols := 2,
                  original_num_symbols := 2, get_masked_symbols := fun s _ => s / 2 * 2 } }

/-- An HMM over two positions and two symbols in which every probability is one and
every logarithm zero. -/
def certain_hmm : CLinearHMM ℝ :=
  { sequence_length := 2, num_symbols := 2,
    hist := some [1, 1, 1, 1], log_hist := some [0, 0, 0, 0], pseudo_count := 1,
    features := { feature_matrix := [[0, 1]], num_features := 2, num_symbols := 2,
                  original_num_symbols := 2, get_masked_symbols := fun s _ => s / 2 * 2 } }

/-- A container holding the three samples `10, 20, 30`. -/
def three_samples : CLatentFeatures Nat :=
  { m_samples := some [10, 20, 30] }

/-! # Theorems -/

/-! ## Loop rules and checked access -/

/-- Total correctness of a loop: an invariant that every iteration re-establishes, each
iteration completing, holds after the loop, which completes. -/
theorem forLoop_total {σ : Type} (body : Nat → σ → Except Fault σ) (Inv : Nat → σ → Prop) :
    ∀ (count start : Nat) (s : σ), Inv start s →
      (∀ i s, start ≤ i → i < start + count → Inv i s →
        ∃ s', body i s = .ok s' ∧ Inv (i + 1) s') →
      ∃ s', forLoop body start count s = .ok s' ∧ Inv (start + count) s' := by
  intro count
  induction count with
  | zero => intro start s h0 _; exact ⟨s, rfl, by simpa using h0⟩
  | succ n ih =>
    intro start s h0 hstep
    obtain ⟨s1, hb, h1⟩ := hstep start s (Nat.le_refl _) (by omega) h0
    obtain ⟨s2, hl, h2⟩ := ih (start + 1) s1 h1
      (fun i t hi hlt hinv => hstep i t (by omega) (by omega) hinv)
    refine ⟨s2, ?_, ?_⟩
    · simp only [forLoop, hb]; exact hl
    · have : start + (n + 1) = start + 1 + n := by omega
      rw [this]; exact h2

/-- Soundness of a loop: an invariant kept by every completing iteration holds after
any completed run. -/
theorem forLoop_sound {σ : Type} (body : Nat → σ → Except Fault σ) (Inv : Nat → σ → Prop) :
    ∀ (count start : Nat) (s r : σ), Inv start s →
      (∀ i s s', start ≤ i → i < start + count → Inv i s → body i s = .ok s' →
        Inv (i + 1) s') →
      forLoop body start count s = .ok r → Inv (start + count) r := by
  intro count
  induction count with
  | zero =>
    intro start s r h0 _ hr
    simp only [forLoop, Except.ok.injEq] at hr
    subst hr; simpa using h0
  | succ n ih =>
    intro start s r h0 hstep hr
    simp only [forLoop] at hr
    cases hb : body start s with
    | error e => rw [hb] at hr; cases hr
    | ok s1 =>
      rw [hb] at hr
      have h1 := hstep start s s1 (Nat.le_refl _) (by omega) h0 hb
      have h2 := ih (start + 1) s1 r h1
        (fun i t t' hi hlt hinv hbt => hstep i t t' (by omega) (by omega) hinv hbt) hr
      have : start + (n + 1) = start + 1 + n := by omega
      rw [this]; exact h2

/-- Two bodies that agree on the iterated range give the same loop. -/
theorem forLoop_congr {σ : Type} (body body' : Nat → σ → Except Fault σ) :
    ∀ (count start : Nat) (s : σ),
      (∀ i s, start ≤ i → i < start + count → body i s = body' i s) →
      forLoop body start count s = forLoop body' start count s := by
  intro count
  induction count with
  | zero => intro start s _; rfl
  | succ n ih =>
    intro start s h
    simp only [forLoop]
    rw [h start s (Nat.le_refl _) (by omega)]
    cases body' start s with
    | error e => rfl
    | ok s1 => exact ih (start + 1) s1 (fun i t hi hlt => h i t (by omega) (by omega))

/-- A loop can only end in a fault that one of its iterations raises. -/
theorem forLoop_error {σ : Type} (body : Nat → σ → Except Fault σ) (P : Fault → Prop) :
    ∀ (count start : Nat) (s : σ) (e : Fault),
      (∀ i s e, start ≤ i → i < start + count → body i s = .error e → P e) →
      forLoop body start count s = .error e → P e := by
  intro count
  induction count with
  | zero => intro start s e _ hr; simp [forLoop] at hr
  | succ n ih =>
    intro start s e hstep hr
    simp only [forLoop] at hr
    cases hb : body start s with
    | error e1 =>
      rw [hb] at hr
      simp only [Except.error.injEq] at hr
      subst hr
      exact hstep start s e1 (Nat.le_refl _) (by omega) hb
    | ok s1 =>
      rw [hb] at hr
      exact ih (start + 1) s1 e
        (fun i t e' hi hlt hbt => hstep i t e' (by omega) (by omega) hbt) hr

/-- A loop of `a + b` iterations is the loop of the first `a` followed by the loop of
the remaining `b`. -/
theorem forLoop_add {σ : Type} (body : Nat → σ → Except Fault σ) :
    ∀ (a b start : Nat) (s : σ),
      forLoop body start (a + b) s =
        match forLoop body start a s with
        | .ok s' => forLoop body (start + a) b s'
        | .error e => .error e := by
  intro a
  induction a with
  | zero => intro b start s; simp [forLoop]
  | succ n ih =>
    intro b start s
    have e1 : n + 1 + b = (n + b) + 1 := by omega
    rw [e1]
    simp only [forLoop]
    cases hb : body start s with
    | error e => rfl
    | ok s1 =>
      simp only
      rw [ih b (start + 1) s1]
      have e2 : start + 1 + n = start + (n + 1) := by omega
      rw [e2]

theorem rdN_eq_ok {α : Type} (a : List α) (i : Nat) (x : α) :
    rdN a i = .ok x ↔ a[i]? = some x := by
  unfold rdN
  cases h : a[i]? <;> simp

theorem wrN_eq_ok {α : Type} (a : List α) (i : Nat) (x : α) (b : List α) :
    wrN a i x = .ok b ↔ i < a.length ∧ b = a.set i x := by
  unfold wrN
  split <;> simp [*, eq_comm]

theorem rdN_of_lt {α : Type} (a : List α) (i : Nat) (h : i < a.length) :
    rdN a i = .ok a[i] := by
  simp [rdN, List.getElem?_eq_getElem h]

theorem wrN_of_lt {α : Type} (a : List α) (i : Nat) (x : α) (h : i < a.length) :
    wrN a i x = .ok (a.set i x) := by
  simp [wrN, h]

theorem rdN_getD {α : Type} (a : List α) (i : Nat) (d : α) (h : i < a.length) :
    rdN a i = .ok (a.getD i d) := by
  rw [rdN_eq_ok, List.getD_eq_getElem?_getD, List.getElem?_eq_getElem h]; rfl

theorem rdN_error {α : Type} (a : List α) (i : Nat) (e : Fault)
    (h : rdN a i = .error e) : e = .out_of_bounds := by
  unfold rdN at h
  cases hx : a[i]? with
  | none => rw [hx] at h; simp only [Except.error.injEq] at h; exact h.symm
  | some x => rw [hx] at h; cases h

theorem wrN_error {α : Type} (a : List α) (i : Nat) (x : α) (e : Fault)
    (h : wrN a i x = .error e) : e = .out_of_bounds := by
  unfold wrN at h
  split at h
  · cases h
  · simp only [Except.error.injEq] at h; exact h.symm

theorem rd_error {α : Type} (a : List α) (i : Int) (e : Fault)
    (h : rd a i = .error e) : e = .out_of_bounds := by
  unfold rd at h
  split at h
  · exact rdN_error _ _ _ h
  · simp only [Except.error.injEq] at h; exact h.symm

theorem flat_index_inj {ns p s q t : Nat} (hs : s < ns) (ht : t < ns)
    (h : p * ns + s = q * ns + t) : p = q ∧ s = t := by
  have hns : 0 < ns := by omega
  have h1 : (p * ns + s) / ns = p := by
    rw [Nat.add_comm, Nat.add_mul_div_right _ _ hns, Nat.div_eq_of_lt hs]; simp
  have h2 : (q * ns + t) / ns = q := by
    rw [Nat.add_comm, Nat.add_mul_div_right _ _ hns, Nat.div_eq_of_lt ht]; simp
  have hpq : p = q := by rw [← h1, ← h2, h]
  subst hpq
  exact ⟨rfl, by omega⟩

theorem flat_index_lt {ns seq p s : Nat} (hp : p < seq) (hs : s < ns) :
    p * ns + s < seq * ns := by
  have : (p + 1) * ns ≤ seq * ns := Nat.mul_le_mul_right ns hp
  rw [Nat.add_mul] at this
  omega

theorem flat_div_mod {ns i j : Nat} (hj : j < ns) :
    (i * ns + j) / ns = i ∧ (i * ns + j) % ns = j := by
  have hns : 0 < ns := by omega
  have hr : (i * ns + j) % ns < ns := Nat.mod_lt _ hns
  have hd : (i * ns + j) / ns * ns + (i * ns + j) % ns = i * ns + j := by
    rw [Nat.mul_comm]; exact Nat.div_add_mod _ _
  exact flat_index_inj hr hj hd

theorem list_sum_range_eq {R : Type} [Field R] (g : Nat → R) (n : Nat) :
    ((List.range n).map g).sum = ∑ k in Finset.range n, g k := by
  induction n with
  | zero => simp
  | succ n ih => rw [List.range_succ, List.map_append, List.sum_append, ih,
      Finset.sum_range_succ]; simp

theorem countP_range_succ (p : Nat → Bool) (k : Nat) :
    (List.range (k + 1)).countP p = (List.range k).countP p + if p k = true then 1 else 0 := by
  rw [List.range_succ, List.countP_append, List.countP_cons, List.countP_nil]
  simp

/-! ## The counting loops -/

/-- Counting one in-range example adds one to the cell of each of its symbols and leaves
every other cell alone. -/
theorem count_vector_spec (ns seq : Nat) (vector : List Nat) (ih : List Int)
    (hlen : ih.length = seq * ns) (hv : vector.length ≤ seq) (hsym : ∀ s ∈ vector, s < ns) :
    ∃ r, count_vector ns vector vector.length ih = .ok r ∧ r.length = seq * ns ∧
      ∀ pos sym, pos < seq → sym < ns →
        r[pos * ns + sym]? =
          some (ih.getD (pos * ns + sym) 0 + if vector[pos]? = some sym then 1 else 0) := by
  have key := forLoop_total (count_step ns vector)
    (fun feat r => r.length = seq * ns ∧ ∀ pos sym, pos < seq → sym < ns →
        r[pos * ns + sym]? = some (ih.getD (pos * ns + sym) 0 +
          if pos < feat ∧ vector[pos]? = some sym then 1 else 0))
    vector.length 0 ih ?_ ?_
  · obtain ⟨r, hr, hl, hP⟩ := key
    refine ⟨r, hr, hl, ?_⟩
    intro pos sym hp hs
    rw [hP pos sym hp hs]
    by_cases hpv : pos < vector.length
    · simp [hpv]
    · have : vector[pos]? = none := List.getElem?_eq_none (by omega)
      simp [this]
  · refine ⟨hlen, ?_⟩
    intro pos sym hp hs
    have hlt : pos * ns + sym < ih.length := by rw [hlen]; exact flat_index_lt hp hs
    simp [List.getD_eq_getElem?_getD, List.getElem?_eq_getElem hlt]
  · intro feat r _ hfeat ⟨hl, hP⟩
    have hfv : feat < vector.length := by omega
    have hfs : vector[feat] < ns := hsym _ (List.getElem_mem _)
    have hfseq : feat < seq := by omega
    have hidx : feat * ns + vector[feat] < r.length := by
      rw [hl]; exact flat_index_lt hfseq hfs
    have hcur := hP feat vector[feat] hfseq hfs
    refine ⟨r.set (feat * ns + vector[feat])
      (ih.getD (feat * ns + vector[feat]) 0 + 1), ?_, ?_, ?_⟩
    · simp [count_step, rdN, wrN, List.getElem?_eq_getElem hfv, hcur, hidx]
    · simp [hl]
    · intro pos sym hp hs
      rw [List.getElem?_set]
      by_cases he : feat * ns + vector[feat] = pos * ns + sym
      · obtain ⟨h1, h2⟩ := flat_index_inj hfs hs he
        subst h1
        simp [he.symm ▸ hidx, he, List.getElem?_eq_getElem hfv, h2]
      · rw [if_neg he, hP pos sym hp hs]
        by_cases hpf : pos = feat
        · subst hpf
          have : ¬ vector[pos]? = some sym := by
            rw [List.getElem?_eq_getElem hfv]
            intro h; apply he; simp at h; rw [h]
          simp [this]
        · have : (pos < feat + 1) = (pos < feat) := by
            apply propext; constructor <;> intro h <;> omega
          simp only [this]

theorem count_take_succ (f : CWordFeatures) (indizes : List Int) (vec : Nat)
    (hvec : vec < indizes.length) (pos sym : Nat) :
    count f (indizes.take (vec + 1)) pos sym =
      count f (indizes.take vec) pos sym +
        if (f.feature_matrix.getD (indizes[vec]).toNat [])[pos]? = some sym then 1 else 0 := by
  unfold count selected
  rw [List.take_succ, List.getElem?_eq_getElem hvec]
  simp only [Option.toList, List.map_append, List.map_cons, List.map_nil,
    List.countP_append, List.countP_cons, List.countP_nil, decide_eq_true_eq, Nat.zero_add]

theorem get_feature_vector_valid (f : CWordFeatures) (idx : Int)
    (h : 0 ≤ idx ∧ idx < f.get_num_vectors) :
    f.get_feature_vector idx = .ok (f.feature_matrix.getD idx.toNat []) ∧
      f.feature_matrix.getD idx.toNat [] ∈ f.feature_matrix := by
  have hlt : idx.toNat < f.feature_matrix.length := by
    have := h.2
    unfold CWordFeatures.get_num_vectors at this
    omega
  constructor
  · simp [CWordFeatures.get_feature_vector, rd, rdN, h.1, List.getElem?_eq_getElem hlt,
      List.getD_eq_getElem?_getD]
  · simp [List.getD_eq_getElem?_getD, List.getElem?_eq_getElem hlt]

/-- For in-range features and valid indices the counting loop of `train` completes and
cell `pos*ns+sym` holds the number of selected examples with `sym` at `pos`. -/
theorem count_selected_spec (f : CWordFeatures) (seq ns : Nat) (indizes : List Int)
    (hr : f.in_range seq ns) (hv : f.valid_indices indizes) :
    ∃ r, forLoop (count_selected f ns indizes) 0 indizes.length
          (List.replicate (seq * ns) 0) = .ok r ∧ r.length = seq * ns ∧
      ∀ pos sym, pos < seq → sym < ns →
        r[pos * ns + sym]? = some (count f indizes pos sym : Int) := by
  have key := forLoop_total (count_selected f ns indizes)
    (fun vec r => r.length = seq * ns ∧ ∀ pos sym, pos < seq → sym < ns →
        r[pos * ns + sym]? = some (count f (indizes.take vec) pos sym : Int))
    indizes.length 0 (List.replicate (seq * ns) 0) ?_ ?_
  · obtain ⟨r, hr1, hl, hP⟩ := key
    refine ⟨r, hr1, hl, ?_⟩
    intro pos sym hp hs
    have := hP pos sym hp hs
    simpa using this
  · refine ⟨by simp, ?_⟩
    intro pos sym hp hs
    have hlt : pos * ns + sym < seq * ns := flat_index_lt hp hs
    simp [count, selected, hlt]
  · intro vec r _ hvec ⟨hl, hP⟩
    have hvl : vec < indizes.length := by omega
    have hval := hv indizes[vec] (List.getElem_mem _)
    obtain ⟨hget, hmem⟩ := get_feature_vector_valid f _ hval
    obtain ⟨hvlen, hvsym⟩ := hr _ hmem
    obtain ⟨r', hr', hl', hP'⟩ := count_vector_spec ns seq _ r hl hvlen hvsym
    refine ⟨r', ?_, hl', ?_⟩
    · simp only [count_selected, rdN, List.getElem?_eq_getElem hvl, if_pos hval, hget, hr']
    · intro pos sym hp hs
      rw [hP' pos sym hp hs, count_take_succ f indizes vec hvl]
      have := hP pos sym hp hs
      rw [List.getD_eq_getElem?_getD, this]
      split <;> simp

theorem count_step_eq_ok (ns : Nat) (vector : List Nat) (feat : Nat) (r r' : List Int) :
    count_step ns vector feat r = .ok r' ↔
      ∃ sym c, vector[feat]? = some sym ∧ r[feat * ns + sym]? = some c ∧
        r' = r.set (feat * ns + sym) (c + 1) := by
  unfold count_step
  cases hv : rdN vector feat with
  | error e =>
    have hn : ∀ sym, vector[feat]? ≠ some sym := by
      intro sym h; rw [(rdN_eq_ok _ _ _).2 h] at hv; cases hv
    simp [hn]
  | ok sym =>
    have hs := (rdN_eq_ok _ _ _).1 hv
    cases hc : rdN r (feat * ns + sym) with
    | error e =>
      have hn : ∀ c, r[feat * ns + sym]? ≠ some c := by
        intro c h; rw [(rdN_eq_ok _ _ _).2 h] at hc; cases hc
      simp [hs, hn, hc]
    | ok c =>
      have hcs := (rdN_eq_ok _ _ _).1 hc
      have hlt : feat * ns + sym < r.length := by
        rcases List.getElem?_eq_some_iff.1 hcs with ⟨h, _⟩
        exact h
      simp [hs, hcs, hc, wrN, hlt, eq_comm]

theorem count_step_nonneg (ns : Nat) (vector : List Nat) (feat : Nat) (r r' : List Int)
    (h0 : ∀ x ∈ r, 0 ≤ x) (hstep : count_step ns vector feat r = .ok r') :
    ∀ x ∈ r', 0 ≤ x := by
  obtain ⟨sym, c, _, hc, hr'⟩ := (count_step_eq_ok _ _ _ _ _).1 hstep
  have hc0 := h0 c (List.getElem?_mem hc)
  intro x hx
  rw [hr'] at hx
  rcases List.mem_or_eq_of_mem_set hx with h | h
  · exact h0 x h
  · omega

theorem count_vector_nonneg (ns : Nat) (vector : List Nat) (len : Nat) (r r' : List Int)
    (h0 : ∀ x ∈ r, 0 ≤ x) (hrun : count_vector ns vector len r = .ok r') :
    ∀ x ∈ r', 0 ≤ x :=
  forLoop_sound (count_step ns vector) (fun _ t => ∀ x ∈ t, 0 ≤ x) len 0 r r' h0
    (fun i s s' _ _ hinv hb => count_step_nonneg ns vector i s s' hinv hb) hrun

theorem count_selected_nonneg (f : CWordFeatures) (ns : Nat) (indizes : List Int)
    (n np : Nat) (r : List Int)
    (hrun : forLoop (count_selected f ns indizes) 0 n (List.replicate np 0) = .ok r) :
    ∀ x ∈ r, 0 ≤ x := by
  refine forLoop_sound (count_selected f ns indizes) (fun _ t => ∀ x ∈ t, 0 ≤ x) n 0
    (List.replicate np 0) r ?_ ?_ hrun
  · intro x hx
    rw [(List.mem_replicate.1 hx).2]
  · intro i s s' _ _ hinv hb
    unfold count_selected at hb
    cases hi : rdN indizes i with
    | error e => rw [hi] at hb; cases hb
    | ok idx =>
      rw [hi] at hb
      simp only at hb
      split at hb
      · cases hg : f.get_feature_vector idx with
        | error e => rw [hg] at hb; cases hb
        | ok v =>
          rw [hg] at hb
          exact count_vector_nonneg ns v v.length s s' hinv hb
      · cases hb

theorem length_of_count_step (ns : Nat) (vector : List Nat) (feat : Nat) (r r' : List Int)
    (hstep : count_step ns vector feat r = .ok r') : r'.length = r.length := by
  obtain ⟨sym, c, _, _, hr'⟩ := (count_step_eq_ok _ _ _ _ _).1 hstep
  rw [hr', List.length_set]

theorem length_of_count_vector (ns : Nat) (vector : List Nat) (len n : Nat) (r r' : List Int)
    (h0 : r.length = n) (hrun : count_vector ns vector len r = .ok r') : r'.length = n :=
  forLoop_sound (count_step ns vector) (fun _ t => t.length = n) len 0 r r' h0
    (fun i s s' _ _ hinv hb => (length_of_count_step ns vector i s s' hb).trans hinv) hrun

theorem length_of_count_selected (f : CWordFeatures) (ns : Nat) (indizes : List Int)
    (n np : Nat) (r : List Int)
    (hrun : forLoop (count_selected f ns indizes) 0 n (List.replicate np 0) = .ok r) :
    r.length = np := by
  refine forLoop_sound (count_selected f ns indizes) (fun _ t => t.length = np) n 0
    (List.replicate np 0) r (by simp) ?_ hrun
  intro i s s' _ _ hinv hb
  unfold count_selected at hb
  cases hi : rdN indizes i with
  | error e => rw [hi] at hb; cases hb
  | ok idx =>
    rw [hi] at hb
    simp only at hb
    split at hb
    · cases hg : f.get_feature_vector idx with
      | error e => rw [hg] at hb; cases hb
      | ok v =>
        rw [hg] at hb
        exact length_of_count_vector ns v v.length np s s' hinv hb
    · cases hb

theorem getD_nonneg (ih : List Int) (hnn : ∀ x ∈ ih, 0 ≤ x) (m : Nat) :
    0 ≤ ih.getD m 0 := by
  rw [List.getD_eq_getElem?_getD]
  cases hm : ih[m]? with
  | none => simp
  | some x => simpa using hnn x (List.getElem?_mem hm)

theorem count_step_error (ns : Nat) (vector : List Nat) (feat : Nat) (r : List Int)
    (e : Fault) (h : count_step ns vector feat r = .error e) : e = .out_of_bounds := by
  unfold count_step at h
  cases hv : rdN vector feat with
  | error e1 =>
    simp only [hv, Except.error.injEq] at h
    subst h; exact rdN_error _ _ _ hv
  | ok sym =>
    simp only [hv] at h
    cases hc : rdN r (feat * ns + sym) with
    | error e1 =>
      simp only [hc, Except.error.injEq] at h
      subst h; exact rdN_error _ _ _ hc
    | ok c =>
      simp only [hc] at h
      exact wrN_error _ _ _ _ h

theorem count_vector_error (ns : Nat) (vector : List Nat) (len : Nat) (r : List Int)
    (e : Fault) (h : count_vector ns vector len r = .error e) : e = .out_of_bounds :=
  forLoop_error (count_step ns vector) (fun e => e = .out_of_bounds) len 0 r e
    (fun i s e' _ _ hb => count_step_error ns vector i s e' hb) h

theorem count_selected_error_valid (f : CWordFeatures) (ns : Nat) (indizes : List Int)
    (hv : f.valid_indices indizes) (vec : Nat) (r : List Int) (e : Fault)
    (h : count_selected f ns indizes vec r = .error e) : e = .out_of_bounds := by
  unfold count_selected at h
  cases hi : rdN indizes vec with
  | error e1 =>
    simp only [hi, Except.error.injEq] at h
    subst h; exact rdN_error _ _ _ hi
  | ok idx =>
    have hval := hv idx (List.getElem?_mem ((rdN_eq_ok _ _ _).1 hi))
    simp only [hi, if_pos hval] at h
    cases hg : f.get_feature_vector idx with
    | error e1 =>
      simp only [hg, Except.error.injEq] at h
      subst h; exact rd_error _ _ _ hg
    | ok v =>
      simp only [hg] at h
      exact count_vector_error ns v v.length r e h

/-! ## The counting loops in closed form -/

/-- Counting a vector all of whose cells lie inside the histogram completes and adds to
every cell the number of positions of the vector that hit it. -/
theorem count_vector_closed (ns : Nat) (v : List Nat) (ih : List Int)
    (hfit : fits ns ih.length v) :
    ∃ r, count_vector ns v v.length ih = .ok r ∧ r.length = ih.length ∧
      ∀ m, m < ih.length → r[m]? = some (ih.getD m 0 + (hits ns v m : Int)) := by
  have key := forLoop_total (count_step ns v)
    (fun k r => r.length = ih.length ∧ ∀ m, m < ih.length →
      r[m]? = some (ih.getD m 0 +
        (((List.range k).countP (fun feat => decide (feat * ns + v.getD feat 0 = m)) : Nat)
          : Int)))
    v.length 0 ih ?_ ?_
  · obtain ⟨r, hr, hl, hP⟩ := key
    refine ⟨r, hr, hl, ?_⟩
    intro m hm
    have := hP m hm
    simpa [hits] using this
  · refine ⟨rfl, ?_⟩
    intro m hm
    simp [List.getD_eq_getElem?_getD, List.getElem?_eq_getElem hm]
  · intro k r _ hk ⟨hl, hP⟩
    have hkv : k < v.length := by omega
    have hvk : v[k]? = some (v.getD k 0) := by
      rw [List.getD_eq_getElem?_getD, List.getElem?_eq_getElem hkv]; rfl
    have hidx : k * ns + v.getD k 0 < ih.length := hfit k hkv
    have hcur := hP _ hidx
    refine ⟨_, (count_step_eq_ok ns v k r _).2 ⟨_, _, hvk, hcur, rfl⟩, ?_, ?_⟩
    · simp [hl]
    · intro m hm
      rw [List.getElem?_set, countP_range_succ]
      by_cases he : k * ns + v.getD k 0 = m
      · subst he
        have hlt : k * ns + v.getD k 0 < r.length := by rw [hl]; exact hidx
        have hpk : decide (k * ns + v.getD k 0 = k * ns + v.getD k 0) = true :=
          decide_eq_true rfl
        rw [if_pos rfl, if_pos hlt, if_pos hpk]
        congr 1
        push_cast
        ring
      · have hpk : decide (k * ns + v.getD k 0 = m) = false := decide_eq_false he
        rw [if_neg he, hP m hm, hpk]
        simp only [Bool.false_eq_true, if_false, Nat.add_zero]

/-- Counting a vector completes only if all its cells lie inside the histogram. -/
theorem fits_of_count_vector (ns : Nat) (v : List Nat) (ih r : List Int)
    (hrun : count_vector ns v v.length ih = .ok r) : fits ns ih.length v := by
  have key := forLoop_sound (count_step ns v)
    (fun k s => s.length = ih.length ∧
      ∀ feat, feat < k → feat * ns + v.getD feat 0 < ih.length)
    v.length 0 ih r ⟨rfl, fun feat hf => absurd hf (Nat.not_lt_zero feat)⟩ ?_ hrun
  · intro feat hf
    exact key.2 feat (by omega)
  · intro k s s' _ _ ⟨hl, hP⟩ hstep
    obtain ⟨sym, c, hv, hc, hs'⟩ := (count_step_eq_ok ns v k s s').1 hstep
    refine ⟨by rw [hs', List.length_set, hl], ?_⟩
    intro feat hf
    by_cases hfk : feat = k
    · subst hfk
      have hlt := (List.getElem?_eq_some_iff.1 hc).1
      rw [List.getD_eq_getElem?_getD, hv]
      rw [hl] at hlt
      exact hlt
    · exact hP feat (by omega)

theorem count_selected_valid_eq (f : CWordFeatures) (ns : Nat) (indizes : List Int)
    (hv : f.valid_indices indizes) (vec : Nat) (hvec : vec < indizes.length)
    (r : List Int) :
    count_selected f ns indizes vec r =
      count_vector ns (f.feature_matrix.getD (indizes[vec]).toNat [])
        (f.feature_matrix.getD (indizes[vec]).toNat []).length r := by
  have hval := hv indizes[vec] (List.getElem_mem _)
  obtain ⟨hget, _⟩ := get_feature_vector_valid f _ hval
  simp only [count_selected, rdN, List.getElem?_eq_getElem hvec, if_pos hval, hget]

theorem selected_take_succ (f : CWordFeatures) (indizes : List Int) (vec : Nat)
    (hvec : vec < indizes.length) :
    selected f (indizes.take (vec + 1)) =
      selected f (indizes.take vec) ++ [f.feature_matrix.getD (indizes[vec]).toNat []] := by
  unfold selected
  rw [List.take_succ, List.getElem?_eq_getElem hvec]
  simp only [Option.toList, List.map_append, List.map_cons, List.map_nil]

/-- For valid indices whose vectors all fit, the counting loop of `train` completes and
every cell holds the number of hits of the selected vectors. -/
theorem count_loop_closed (f : CWordFeatures) (ns np : Nat) (indizes : List Int)
    (hv : f.valid_indices indizes) (hfit : ∀ v ∈ selected f indizes, fits ns np v) :
    ∃ r, forLoop (count_selected f ns indizes) 0 indizes.length (List.replicate np 0) =
        .ok r ∧ r.length = np ∧
      ∀ m, m < np →
        r[m]? = some (((selected f indizes).map (fun v => (hits ns v m : Int))).sum) := by
  have key := forLoop_total (count_selected f ns indizes)
    (fun vec r => r.length = np ∧ ∀ m, m < np →
      r[m]? = some (((selected f (indizes.take vec)).map
        (fun v => (hits ns v m : Int))).sum))
    indizes.length 0 (List.replicate np 0) ?_ ?_
  · obtain ⟨r, hr, hl, hP⟩ := key
    refine ⟨r, hr, hl, ?_⟩
    intro m hm
    have := hP m hm
    simpa using this
  · refine ⟨by simp, ?_⟩
    intro m hm
    simp [selected, hm]
  · intro vec r _ hvec ⟨hl, hP⟩
    have hvl : vec < indizes.length := by omega
    have hmem : f.feature_matrix.getD (indizes[vec]).toNat [] ∈ selected f indizes := by
      unfold selected
      exact List.mem_map.2 ⟨indizes[vec], List.getElem_mem _, rfl⟩
    have hf := hfit _ hmem
    rw [← hl] at hf
    obtain ⟨r', hr', hl', hP'⟩ := count_vector_closed ns _ r hf
    refine ⟨r', ?_, hl'.trans hl, ?_⟩
    · rw [count_selected_valid_eq f ns indizes hv vec hvl]; exact hr'
    · intro m hm
      rw [hP' m (by omega), selected_take_succ f indizes vec hvl, List.map_append,
        List.sum_append, List.getD_eq_getElem?_getD, hP m hm]
      simp

/-- The counting loop of `train` over valid indices completes only if all the selected
vectors fit. -/
theorem fits_of_count_loop (f : CWordFeatures) (ns np : Nat) (indizes : List Int)
    (hv : f.valid_indices indizes) (r : List Int)
    (hrun : forLoop (count_selected f ns indizes) 0 indizes.length (List.replicate np 0) =
      .ok r) :
    ∀ v ∈ selected f indizes, fits ns np v := by
  have key := forLoop_sound (count_selected f ns indizes)
    (fun vec s => s.length = np ∧ ∀ v ∈ selected f (indizes.take vec), fits ns np v)
    indizes.length 0 (List.replicate np 0) r ⟨by simp, by simp [selected]⟩ ?_ hrun
  · have h2 := key.2
    simpa using h2
  · intro vec s s' _ hvec ⟨hl, hP⟩ hstep
    have hvl : vec < indizes.length := by omega
    rw [count_selected_valid_eq f ns indizes hv vec hvl] at hstep
    refine ⟨length_of_count_vector ns _ _ np s s' hl hstep, ?_⟩
    intro v hvm
    rw [selected_take_succ f indizes vec hvl] at hvm
    rcases List.mem_append.1 hvm with h | h
    · exact hP v h
    · have : v = f.feature_matrix.getD (indizes[vec]).toNat [] := by simpa using h
      subst this
      have := fits_of_count_vector ns _ s s' hstep
      rw [hl] at this
      exact this

theorem valid_indices_perm (f : CWordFeatures) (l1 l2 : List Int) (hperm : l1.Perm l2)
    (hv : f.valid_indices l1) : f.valid_indices l2 :=
  fun i hi => hv i (hperm.mem_iff.2 hi)

/-- The counting loop of `train` gives the same outcome for two orders of the same valid
indices: the same histogram, or the same out-of-bounds fault. -/
theorem count_loop_perm (f : CWordFeatures) (ns np : Nat) (l1 l2 : List Int)
    (hperm : l1.Perm l2) (hv : f.valid_indices l1) :
    forLoop (count_selected f ns l1) 0 l1.length (List.replicate np 0) =
      forLoop (count_selected f ns l2) 0 l2.length (List.replicate np 0) := by
  have hv2 := valid_indices_perm f l1 l2 hperm hv
  have hsel : (selected f l1).Perm (selected f l2) := hperm.map _
  by_cases hfit : ∀ v ∈ selected f l1, fits ns np v
  · have hfit2 : ∀ v ∈ selected f l2, fits ns np v :=
      fun v hm => hfit v (hsel.mem_iff.2 hm)
    obtain ⟨r1, hr1, hl1, hP1⟩ := count_loop_closed f ns np l1 hv hfit
    obtain ⟨r2, hr2, hl2, hP2⟩ := count_loop_closed f ns np l2 hv2 hfit2
    rw [hr1, hr2]
    congr 1
    apply List.ext_getElem?
    intro m
    by_cases hm : m < np
    · rw [hP1 m hm, hP2 m hm, (hsel.map _).sum_eq]
    · rw [List.getElem?_eq_none (by omega), List.getElem?_eq_none (by omega)]
  · have herr : ∀ l : List Int, f.valid_indices l → (¬ ∀ v ∈ selected f l, fits ns np v) →
        forLoop (count_selected f ns l) 0 l.length (List.replicate np 0) =
          .error .out_of_bounds := by
      intro l hvl hnf
      cases hc : forLoop (count_selected f ns l) 0 l.length (List.replicate np 0) with
      | ok r => exact absurd (fits_of_count_loop f ns np l hvl r hc) hnf
      | error e =>
        rw [forLoop_error _ (fun e => e = Fault.out_of_bounds) _ _ _ e
          (fun i s e' _ _ hb => count_selected_error_valid f ns l hvl i s e' hb) hc]
    have hnf2 : ¬ ∀ v ∈ selected f l2, fits ns np v :=
      fun h2 => hfit (fun v hm => h2 v (hsel.mem_iff.1 hm))
    rw [herr l1 hv hfit, herr l2 hv2 hnf2]

/-! ## The counting loop at an index out of range -/

/-- An index list that is not valid throughout splits at its first bad index. -/
theorem first_bad_index (f : CWordFeatures) (indizes : List Int)
    (h : ¬ f.valid_indices indizes) :
    ∃ pre bad post, indizes = pre ++ bad :: post ∧ f.valid_indices pre ∧
      ¬ (0 ≤ bad ∧ bad < f.get_num_vectors) := by
  induction indizes with
  | nil => exact absurd (fun i hi => absurd hi (List.not_mem_nil i)) h
  | cons a l ih =>
    by_cases ha : 0 ≤ a ∧ a < f.get_num_vectors
    · have hl : ¬ f.valid_indices l := by
        intro hl
        apply h
        intro i hi
        rcases List.mem_cons.1 hi with rfl | hi
        · exact ha
        · exact hl i hi
      obtain ⟨pre, bad, post, he, hpre, hbad⟩ := ih hl
      refine ⟨a :: pre, bad, post, by rw [he]; rfl, ?_, hbad⟩
      intro i hi
      rcases List.mem_cons.1 hi with rfl | hi
      · exact ha
      · exact hpre i hi
    · exact ⟨[], a, l, rfl, fun i hi => absurd hi (List.not_mem_nil i), ha⟩

theorem count_selected_head (f : CWordFeatures) (ns : Nat) (pre rest : List Int)
    (s : List Int) :
    forLoop (count_selected f ns (pre ++ rest)) 0 pre.length s =
      forLoop (count_selected f ns pre) 0 pre.length s := by
  apply forLoop_congr
  intro i t _ hi
  have hlt : i < pre.length := by omega
  unfold count_selected rdN
  rw [List.getElem?_append_left hlt]

theorem count_selected_at_bad (f : CWordFeatures) (ns : Nat) (pre post : List Int)
    (bad : Int) (hbad : ¬ (0 ≤ bad ∧ bad < f.get_num_vectors)) (ih : List Int) :
    count_selected f ns (pre ++ bad :: post) pre.length ih = .error .assertion := by
  have hget : (pre ++ bad :: post)[pre.length]? = some bad := by
    rw [List.getElem?_append_right (Nat.le_refl _)]; simp
  simp only [count_selected, (rdN_eq_ok _ _ _).2 hget, if_neg hbad]

/-- With in-range features the counting loop of `train` stops on the assertion at the
first bad index, the valid indices before it having been counted. -/
theorem count_loop_bad_index (f : CWordFeatures) (seq ns : Nat) (pre post : List Int)
    (bad : Int) (hr : f.in_range seq ns) (hpre : f.valid_indices pre)
    (hbad : ¬ (0 ≤ bad ∧ bad < f.get_num_vectors)) :
    (∃ r, forLoop (count_selected f ns (pre ++ bad :: post)) 0 pre.length
          (List.replicate (seq * ns) 0) = .ok r ∧
        ∀ pos sym, pos < seq → sym < ns →
          r[pos * ns + sym]? = some (count f pre pos sym : Int)) ∧
      forLoop (count_selected f ns (pre ++ bad :: post)) 0 (pre ++ bad :: post).length
        (List.replicate (seq * ns) 0) = .error .assertion := by
  obtain ⟨r, hr1, _, hP⟩ := count_selected_spec f seq ns pre hr hpre
  have hhead := count_selected_head f ns pre (bad :: post) (List.replicate (seq * ns) 0)
  rw [hr1] at hhead
  refine ⟨⟨r, hhead, hP⟩, ?_⟩
  have hlen : (pre ++ bad :: post).length = pre.length + (post.length + 1) := by simp
  rw [hlen, forLoop_add, hhead]
  simp only [forLoop, Nat.zero_add, count_selected_at_bad f ns pre post bad hbad]

/-! ## The normalisation loops -/

theorem masked_sum_sound {R : Type} [Field R] (f : CWordFeatures) (ns : Nat)
    (ih : List Int) (i j : Nat) (s : R) (hrun : masked_sum f ns ih i j = .ok s) :
    (∀ k, k < f.original_num_symbols → i * ns + f.base j + k < ih.length) ∧
      s = ((List.range f.original_num_symbols).map
            (fun k => ((ih.getD (i * ns + f.base j + k) 0 : Int) : R))).sum := by
  have key := forLoop_sound
    (fun k (sum : R) =>
      match rdN ih (i * ns + f.base j + k) with
      | .error e => .error e
      | .ok c => .ok (sum + (c : R)))
    (fun n (s : R) => (∀ k, k < n → i * ns + f.base j + k < ih.length) ∧
      s = ((List.range n).map
            (fun k => ((ih.getD (i * ns + f.base j + k) 0 : Int) : R))).sum)
    f.original_num_symbols 0 0 s ?_ ?_ hrun
  · simpa using key
  · exact ⟨fun k hk => absurd hk (Nat.not_lt_zero k), by simp⟩
  · intro k s1 s2 _ _ ⟨hb, hs⟩ hstep
    cases hc : rdN ih (i * ns + f.base j + k) with
    | error e => simp [hc] at hstep
    | ok c =>
      simp only [hc, Except.ok.injEq] at hstep
      have hcs := (rdN_eq_ok _ _ _).1 hc
      obtain ⟨hlt, _⟩ := List.getElem?_eq_some_iff.1 hcs
      constructor
      · intro k' hk'
        by_cases hkk : k' = k
        · subst hkk; exact hlt
        · exact hb k' (by omega)
      · rw [← hstep, hs, List.range_succ, List.map_append, List.sum_append]
        simp [List.getD_eq_getElem?_getD, hcs]

theorem masked_sum_total {R : Type} [Field R] (f : CWordFeatures) (ns : Nat)
    (ih : List Int) (i j : Nat)
    (hb : ∀ k, k < f.original_num_symbols → i * ns + f.base j + k < ih.length) :
    ∃ s : R, masked_sum f ns ih i j = .ok s := by
  have key := forLoop_total
    (fun k (sum : R) =>
      match rdN ih (i * ns + f.base j + k) with
      | .error e => .error e
      | .ok c => .ok (sum + (c : R)))
    (fun _ _ => True) f.original_num_symbols 0 (0 : R) trivial ?_
  · obtain ⟨s, hs, _⟩ := key
    exact ⟨s, hs⟩
  · intro k s _ hk _
    have hlt := hb k (by omega)
    exact ⟨s + ((ih[i * ns + f.base j + k] : Int) : R),
      by simp [rdN, List.getElem?_eq_getElem hlt], trivial⟩

theorem normalised_eq {R : Type} [Field R] (f : CWordFeatures) (ns : Nat) (pc : R)
    (ih : List Int) (i j : Nat) (sum : R) (hm : masked_sum f ns ih i j = .ok sum)
    (h0 : i * ns + j < ih.length) :
    ((ih[i * ns + j] : Int) + pc) / (sum + (f.original_num_symbols : R) * pc) =
      normalised f ns pc ih i j := by
  unfold normalised
  rw [← (masked_sum_sound f ns ih i j sum hm).2, List.getD_eq_getElem?_getD,
    List.getElem?_eq_getElem h0]
  rfl

theorem normalise_entry_eq_ok {R : Type} [Field R] (lg : R → R) (f : CWordFeatures)
    (ns : Nat) (pc : R) (ih : List Int) (i j : Nat) (t t' : List R × List R) :
    normalise_entry lg f ns pc ih i j t = .ok t' ↔
      (∀ k, k < f.original_num_symbols → i * ns + f.base j + k < ih.length) ∧
      i * ns + j < ih.length ∧ i * ns + j < t.1.length ∧ i * ns + j < t.2.length ∧
      t' = (t.1.set (i * ns + j) (normalised f ns pc ih i j),
            t.2.set (i * ns + j) (lg (normalised f ns pc ih i j))) := by
  unfold normalise_entry
  cases hm : masked_sum (R := R) f ns ih i j with
  | error e =>
    have hn : ¬ ∀ k, k < f.original_num_symbols → i * ns + f.base j + k < ih.length := by
      intro hb
      obtain ⟨s, hs⟩ := masked_sum_total (R := R) f ns ih i j hb
      rw [hs] at hm; cases hm
    simp [hn]
  | ok sum =>
    obtain ⟨hb, _⟩ := masked_sum_sound f ns ih i j sum hm
    by_cases h0 : i * ns + j < ih.length
    · have e1 := rdN_of_lt ih _ h0
      have hv := normalised_eq f ns pc ih i j sum hm h0
      by_cases h1 : i * ns + j < t.1.length
      · have e2 := wrN_of_lt t.1 _ (normalised f ns pc ih i j) h1
        have e3 : rdN (t.1.set (i * ns + j) (normalised f ns pc ih i j)) (i * ns + j) =
            .ok (normalised f ns pc ih i j) :=
          (rdN_eq_ok _ _ _).2 (List.getElem?_set_self h1)
        by_cases h2 : i * ns + j < t.2.length
        · have e4 := wrN_of_lt t.2 _ (lg (normalised f ns pc ih i j)) h2
          simp only [e1, hv, e2, e3, e4, Except.ok.injEq]
          constructor
          · intro h; exact ⟨hb, h0, h1, h2, h.symm⟩
          · intro h; exact h.2.2.2.2.symm
        · have e4 : wrN t.2 (i * ns + j) (lg (normalised f ns pc ih i j)) =
              .error .out_of_bounds := by simp [wrN, h2]
          simp only [e1, hv, e2, e3, e4]
          simp [h2]
      · have e2 : wrN t.1 (i * ns + j) (normalised f ns pc ih i j) =
            .error .out_of_bounds := by simp [wrN, h1]
        simp only [e1, hv, e2]
        simp [h1]
    · have e1 : rdN ih (i * ns + j) = .error .out_of_bounds := by
        simp [rdN, List.getElem?_eq_none (Nat.le_of_not_lt h0)]
      simp only [e1]
      simp [h0]

theorem filled_set {R : Type} [Field R] (lg : R → R) (f : CWordFeatures) (ns : Nat)
    (pc : R) (ih : List Int) (t : List R × List R) (m m' : Nat) (x y : R)
    (hne : m ≠ m') (h : filled lg f ns pc ih t m') :
    filled lg f ns pc ih (t.1.set m x, t.2.set m y) m' := by
  obtain ⟨h1, h2, h3, h4⟩ := h
  refine ⟨h1, h2, ?_, ?_⟩
  · show (t.1.set m x)[m']? = _
    rw [List.getElem?_set_ne hne]; exact h3
  · show (t.2.set m y)[m']? = _
    rw [List.getElem?_set_ne hne]; exact h4

theorem normalise_row_sound {R : Type} [Field R] (lg : R → R) (f : CWordFeatures)
    (ns np : Nat) (pc : R) (ih : List Int) (i : Nat) (t t' : List R × List R)
    (hl : t.1.length = np ∧ t.2.length = np)
    (h0 : ∀ m, m < i * ns → filled lg f ns pc ih t m)
    (hrun : forLoop (normalise_entry lg f ns pc ih i) 0 ns t = .ok t') :
    (t'.1.length = np ∧ t'.2.length = np) ∧
      ∀ m, m < (i + 1) * ns → filled lg f ns pc ih t' m := by
  have key := forLoop_sound (normalise_entry lg f ns pc ih i)
    (fun j s => (s.1.length = np ∧ s.2.length = np) ∧
      ∀ m, m < i * ns + j → filled lg f ns pc ih s m)
    ns 0 t t' ⟨hl, by simpa using h0⟩ ?_ hrun
  · have e : (i + 1) * ns = i * ns + (0 + ns) := by rw [Nat.add_mul]; omega
    rw [e]; exact key
  · intro j s s' _ hj ⟨hls, hf⟩ hstep
    obtain ⟨hb, hi0, hi1, hi2, hs'⟩ := (normalise_entry_eq_ok lg f ns pc ih i j s s').1 hstep
    subst hs'
    refine ⟨⟨by simp [hls.1], by simp [hls.2]⟩, ?_⟩
    intro m hm
    by_cases hmm : m = i * ns + j
    · subst hmm
      obtain ⟨hd, hmod⟩ := flat_div_mod (i := i) (show j < ns by omega)
      refine ⟨?_, hi0, ?_, ?_⟩
      · rw [hd, hmod]; exact hb
      · rw [hd, hmod]; exact List.getElem?_set_self hi1
      · rw [hd, hmod]; exact List.getElem?_set_self hi2
    · exact filled_set lg f ns pc ih s _ m _ _ (Ne.symm hmm) (hf m (by omega))

/-- Any completed run of the normalisation loops has filled all `seq*ns` entries of both
tables. -/
theorem normalise_sound {R : Type} [Field R] (lg : R → R) (f : CWordFeatures)
    (seq ns : Nat) (pc : R) (ih : List Int) (t : List R × List R)
    (hrun : normalise lg f seq ns pc ih = .ok t) :
    (t.1.length = seq * ns ∧ t.2.length = seq * ns) ∧
      ∀ m, m < seq * ns → filled lg f ns pc ih t m := by
  have key := forLoop_sound
    (fun i s => forLoop (normalise_entry lg f ns pc ih i) 0 ns s)
    (fun i s => (s.1.length = seq * ns ∧ s.2.length = seq * ns) ∧
      ∀ m, m < i * ns → filled lg f ns pc ih s m)
    seq 0 _ t ⟨⟨by simp, by simp⟩, by simp⟩ ?_ hrun
  · simpa using key
  · intro i s s' _ _ ⟨hls, hf⟩ hstep
    exact normalise_row_sound lg f ns (seq * ns) pc ih i s s' hls hf hstep

/-- The normalisation loops complete when `int_hist` has `seq*ns` entries and every span
lies inside the alphabet. -/
theorem normalise_total {R : Type} [Field R] (lg : R → R) (f : CWordFeatures)
    (seq ns : Nat) (pc : R) (ih : List Int) (hlen : ih.length = seq * ns)
    (hspan : f.span_in_alphabet ns) :
    ∃ t, normalise lg f seq ns pc ih = .ok t := by
  have key := forLoop_total
    (fun i s => forLoop (normalise_entry lg f ns pc ih i) 0 ns s)
    (fun _ (s : List R × List R) => s.1.length = seq * ns ∧ s.2.length = seq * ns)
    seq 0 (List.replicate (seq * ns) 0, List.replicate (seq * ns) 0)
    ⟨by simp, by simp⟩ ?_
  · obtain ⟨t, ht, _⟩ := key
    exact ⟨t, ht⟩
  · intro i s _ hi hls
    refine forLoop_total (normalise_entry lg f ns pc ih i)
      (fun _ (s : List R × List R) => s.1.length = seq * ns ∧ s.2.length = seq * ns)
      ns 0 s hls ?_
    intro j u _ hj hlu
    have hjn : j < ns := by omega
    have hin : i < seq := by omega
    have hm : i * ns + j < seq * ns := flat_index_lt hin hjn
    refine ⟨_, (normalise_entry_eq_ok lg f ns pc ih i j u _).2
      ⟨?_, by omega, by omega, by omega, rfl⟩, by simp [hlu.1], by simp [hlu.2]⟩
    intro k hk
    have := flat_index_lt hin (hspan j hjn k hk)
    omega

/-- Once training has run through, every span of a masked base lies inside the alphabet:
the reads for the last position would otherwise have left `int_hist`. -/
theorem span_of_filled {R : Type} [Field R] (lg : R → R) (f : CWordFeatures)
    (seq ns : Nat) (pc : R) (ih : List Int) (t : List R × List R)
    (hlen : ih.length = seq * ns) (hseq : 0 < seq)
    (hf : ∀ m, m < seq * ns → filled lg f ns pc ih t m) :
    f.span_in_alphabet ns := by
  intro j hj k hk
  have hlast : seq - 1 < seq := by omega
  have hm := flat_index_lt hlast hj
  obtain ⟨hb, _, _, _⟩ := hf _ hm
  obtain ⟨hd, hmod⟩ := flat_div_mod (i := seq - 1) hj
  have := hb k hk
  rw [hd, hmod, hlen] at this
  have e : seq * ns = (seq - 1) * ns + ns := by
    rw [Nat.sub_mul]; simp
    have : ns ≤ seq * ns := Nat.le_mul_of_pos_left ns hseq
    omega
  omega

theorem normalised_of_counts {R : Type} [Field R] (f : CWordFeatures) (seq ns : Nat)
    (pc : R) (ih : List Int) (indizes : List Int)
    (hP : ∀ pos sym, pos < seq → sym < ns →
      ih[pos * ns + sym]? = some (count f indizes pos sym : Int))
    (hspan : f.span_in_alphabet ns) (pos sym : Nat) (hp : pos < seq) (hs : sym < ns) :
    normalised f ns pc ih pos sym =
      ((count f indizes pos sym : R) + pc) /
        (∑ k in Finset.range f.original_num_symbols,
            (count f indizes pos (f.base sym + k) : R) +
          (f.original_num_symbols : R) * pc) := by
  unfold normalised
  rw [list_sum_range_eq, List.getD_eq_getElem?_getD, hP pos sym hp hs]
  congr 2
  · simp
  · apply Finset.sum_congr rfl
    intro k hk
    have hk' : k < f.original_num_symbols := Finset.mem_range.1 hk
    rw [List.getD_eq_getElem?_getD, Nat.add_assoc, hP pos _ hp (hspan sym hs k hk')]
    simp

theorem denominator_of_counts {R : Type} [Field R] (f : CWordFeatures) (seq ns : Nat)
    (ih : List Int) (indizes : List Int)
    (hP : ∀ pos sym, pos < seq → sym < ns →
      ih[pos * ns + sym]? = some (count f indizes pos sym : Int))
    (hspan : f.span_in_alphabet ns) (pos sym : Nat) (hp : pos < seq) (hs : sym < ns) :
    ((List.range f.original_num_symbols).map
          (fun k => ((ih.getD (pos * ns + f.base sym + k) 0 : Int) : R))).sum =
      ∑ k in Finset.range f.original_num_symbols,
        (count f indizes pos (f.base sym + k) : R) := by
  rw [list_sum_range_eq]
  apply Finset.sum_congr rfl
  intro k hk
  have hk' : k < f.original_num_symbols := Finset.mem_range.1 hk
  rw [List.getD_eq_getElem?_getD, Nat.add_assoc, hP pos _ hp (hspan sym hs k hk')]
  simp

/-- The common denominator of a span is positive when the pseudo count is. -/
theorem denominator_pos {R : Type} [LinearOrderedField R] (f : CWordFeatures)
    (pc : R) (ih : List Int) (hnn : ∀ x ∈ ih, 0 ≤ x) (hpc : 0 < pc)
    (horig : 1 ≤ f.original_num_symbols) (b : Nat) :
    0 < ((List.range f.original_num_symbols).map
          (fun k => ((ih.getD (b + k) 0 : Int) : R))).sum +
        (f.original_num_symbols : R) * pc := by
  have h1 : (0 : R) ≤ ((List.range f.original_num_symbols).map
      (fun k => ((ih.getD (b + k) 0 : Int) : R))).sum := by
    apply List.sum_nonneg
    intro x hx
    simp only [List.mem_map, List.mem_range] at hx
    obtain ⟨k, _, rfl⟩ := hx
    exact Int.cast_nonneg.2 (getD_nonneg ih hnn (b + k))
  have h2 : (0 : R) < (f.original_num_symbols : R) * pc := by
    apply mul_pos _ hpc
    exact Nat.cast_pos.2 (by omega)
  linarith

theorem normalised_pos {R : Type} [LinearOrderedField R] (f : CWordFeatures) (ns : Nat)
    (pc : R) (ih : List Int) (hnn : ∀ x ∈ ih, 0 ≤ x) (hpc : 0 < pc)
    (horig : 1 ≤ f.original_num_symbols) (i j : Nat) :
    0 < normalised f ns pc ih i j := by
  unfold normalised
  apply div_pos
  · have : (0 : R) ≤ ((ih.getD (i * ns + j) 0 : Int) : R) :=
      Int.cast_nonneg.2 (getD_nonneg ih hnn _)
    linarith
  · exact denominator_pos f pc ih hnn hpc horig (i * ns + f.base j)

theorem normalised_le_one {R : Type} [LinearOrderedField R] (f : CWordFeatures) (ns : Nat)
    (pc : R) (ih : List Int) (hnn : ∀ x ∈ ih, 0 ≤ x) (hpc : 0 ≤ pc)
    (horig : 1 ≤ f.original_num_symbols) (i j : Nat)
    (hb : f.base j ≤ j ∧ j < f.base j + f.original_num_symbols)
    (hden : 0 < ((List.range f.original_num_symbols).map
          (fun k => ((ih.getD (i * ns + f.base j + k) 0 : Int) : R))).sum +
        (f.original_num_symbols : R) * pc) :
    0 ≤ normalised f ns pc ih i j ∧ normalised f ns pc ih i j ≤ 1 := by
  unfold normalised
  have hnum : (0 : R) ≤ ((ih.getD (i * ns + j) 0 : Int) : R) + pc := by
    have : (0 : R) ≤ ((ih.getD (i * ns + j) 0 : Int) : R) :=
      Int.cast_nonneg.2 (getD_nonneg ih hnn _)
    linarith
  refine ⟨div_nonneg hnum (le_of_lt hden), (div_le_one hden).2 ?_⟩
  have hk : j - f.base j < f.original_num_symbols := by omega
  have hidx : i * ns + f.base j + (j - f.base j) = i * ns + j := by omega
  have hsum : ((ih.getD (i * ns + j) 0 : Int) : R) ≤
      ((List.range f.original_num_symbols).map
        (fun k => ((ih.getD (i * ns + f.base j + k) 0 : Int) : R))).sum := by
    rw [list_sum_range_eq]
    have := Finset.single_le_sum (f := fun k => ((ih.getD (i * ns + f.base j + k) 0 : Int) : R))
      (s := Finset.range f.original_num_symbols)
      (fun k _ => Int.cast_nonneg.2 (getD_nonneg ih hnn _)) (Finset.mem_range.2 hk)
    simpa [hidx] using this
  have hpc1 : pc ≤ (f.original_num_symbols : R) * pc := by
    have h1 : (1 : R) ≤ (f.original_num_symbols : R) := by exact_mod_cast horig
    nlinarith
  linarith

theorem normalise_positive {R : Type} [LinearOrderedField R] (lg : R → R)
    (f : CWordFeatures) (seq ns : Nat) (pc : R) (ih : List Int) (t : List R × List R)
    (hn : normalise lg f seq ns pc ih = .ok t) (hnn : ∀ x ∈ ih, 0 ≤ x) (hpc : 0 < pc)
    (horig : 1 ≤ f.original_num_symbols) :
    ∀ pos sym, pos < seq → sym < ns →
      ∃ x, t.1[pos * ns + sym]? = some x ∧ 0 < x := by
  intro pos sym hp hs
  obtain ⟨_, hf⟩ := normalise_sound lg f seq ns pc ih t hn
  obtain ⟨_, _, h3, _⟩ := hf _ (flat_index_lt hp hs)
  exact ⟨_, h3, normalised_pos f ns pc ih hnn hpc horig _ _⟩

/-- After the normalisation loops every `log_hist[i]` is `lg` applied to the stored
`hist[i]`, for whatever function `lg` is passed as `log`. -/
theorem paired_of_normalise {R : Type} [Field R] (lg : R → R) (h h' : CLinearHMM R)
    (pc : R) (ih : List Int) (t : List R × List R)
    (hn : normalise lg h.features h.sequence_length h.num_symbols pc ih = .ok t)
    (hh : h'.hist = some t.1) (hl : h'.log_hist = some t.2) :
    paired lg h.num_params h' := by
  obtain ⟨_, hf⟩ := normalise_sound lg _ _ _ _ _ _ hn
  refine ⟨t.1, t.2, hh, hl, ?_⟩
  intro i hi
  obtain ⟨_, _, h3, h4⟩ := hf i hi
  exact ⟨_, h3, h4⟩

theorem masked_sum_error {R : Type} [Field R] (f : CWordFeatures) (ns : Nat)
    (ih : List Int) (i j : Nat) (e : Fault)
    (h : masked_sum (R := R) f ns ih i j = .error e) : e = .out_of_bounds := by
  refine forLoop_error _ (fun e => e = .out_of_bounds) _ 0 (0 : R) e ?_ h
  intro k s e' _ _ hb
  cases hc : rdN ih (i * ns + f.base j + k) with
  | error e1 =>
    simp only [hc, Except.error.injEq] at hb
    subst hb; exact rdN_error _ _ _ hc
  | ok c => simp [hc] at hb

theorem normalise_entry_error {R : Type} [Field R] (lg : R → R) (f : CWordFeatures)
    (ns : Nat) (pc : R) (ih : List Int) (i j : Nat) (t : List R × List R) (e : Fault)
    (h : normalise_entry lg f ns pc ih i j t = .error e) : e = .out_of_bounds := by
  unfold normalise_entry at h
  cases hm : masked_sum (R := R) f ns ih i j with
  | error e1 =>
    simp only [hm, Except.error.injEq] at h
    subst h; exact masked_sum_error f ns ih i j _ hm
  | ok sum =>
    simp only [hm] at h
    cases hc : rdN ih (i * ns + j) with
    | error e1 =>
      simp only [hc, Except.error.injEq] at h
      subst h; exact rdN_error _ _ _ hc
    | ok c =>
      simp only [hc] at h
      cases hw : wrN t.1 (i * ns + j)
          (((c : R) + pc) / (sum + (f.original_num_symbols : R) * pc)) with
      | error e1 =>
        simp only [hw, Except.error.injEq] at h
        subst h; exact wrN_error _ _ _ _ hw
      | ok hist =>
        simp only [hw] at h
        cases hx : rdN hist (i * ns + j) with
        | error e1 =>
          simp only [hx, Except.error.injEq] at h
          subst h; exact rdN_error _ _ _ hx
        | ok x =>
          simp only [hx] at h
          cases hw2 : wrN t.2 (i * ns + j) (lg x) with
          | error e1 =>
            simp only [hw2, Except.error.injEq] at h
            subst h; exact wrN_error _ _ _ _ hw2
          | ok lh => simp [hw2] at h

theorem normalise_error {R : Type} [Field R] (lg : R → R) (f : CWordFeatures)
    (seq ns : Nat) (pc : R) (ih : List Int) (e : Fault)
    (h : normalise lg f seq ns pc ih = .error e) : e = .out_of_bounds := by
  refine forLoop_error _ (fun e => e = .out_of_bounds) seq 0 _ e ?_ h
  intro i s e' _ _ hb
  exact forLoop_error _ (fun e => e = .out_of_bounds) ns 0 s e'
    (fun j u e'' _ _ hbj => normalise_entry_error lg f ns pc ih i j u e'' hbj) hb

/-! ## The two training functions -/

theorem train_eq_ok {R : Type} [Field R] (lg : R → R) (h h' : CLinearHMM R)
    (indizes : List Int) (n : Nat) (pc : R) :
    h.train lg indizes n pc = .ok h' ↔
      ∃ ih t, forLoop (count_selected h.features h.num_symbols indizes) 0 n
          (List.replicate h.num_params 0) = .ok ih ∧
        normalise lg h.features h.sequence_length h.num_symbols pc ih = .ok t ∧
        h' = { h.delete_tables with hist := some t.1, log_hist := some t.2 } := by
  unfold CLinearHMM.train
  cases hc : forLoop (count_selected h.features h.num_symbols indizes) 0 n
      (List.replicate h.num_params 0) with
  | error e => simp
  | ok ih =>
    cases hn : normalise lg h.features h.sequence_length h.num_symbols pc ih with
    | error e => simp [hn]
    | ok t =>
      simp only [hn, Except.ok.injEq, exists_and_left, exists_eq_left']
      exact eq_comm

theorem all_indices_get (f : CWordFeatures) (vec : Nat)
    (h : vec < f.feature_matrix.length) : f.all_indices[vec]? = some (vec : Int) := by
  simp [CWordFeatures.all_indices, List.getElem?_range h]

/-- The parameterless `train()` runs exactly as `train` on the index list of all stored
vectors with the stored pseudo count. -/
theorem train_all_eq_train {R : Type} [Field R] (lg : R → R) (h : CLinearHMM R) :
    h.train_all lg =
      h.train lg h.features.all_indices h.features.all_indices.length h.pseudo_count := by
  unfold CLinearHMM.train_all CLinearHMM.train
  have hn : h.features.get_num_vectors.toNat = h.features.all_indices.length := by
    simp [CWordFeatures.get_num_vectors, CWordFeatures.all_indices]
  have hl : h.features.all_indices.length = h.features.feature_matrix.length := by
    simp [CWordFeatures.all_indices]
  rw [hn, forLoop_congr (count_all h.features h.num_symbols)
    (count_selected h.features h.num_symbols h.features.all_indices)]
  intro vec s _ hvec
  have hv : vec < h.features.feature_matrix.length := by omega
  have hval : (0 : Int) ≤ (vec : Int) ∧ (vec : Int) < h.features.get_num_vectors := by
    constructor
    · omega
    · unfold CWordFeatures.get_num_vectors; omega
  simp only [count_all, count_selected, (rdN_eq_ok _ _ _).2 (all_indices_get _ vec hv),
    if_pos hval]

theorem all_indices_valid (f : CWordFeatures) : f.valid_indices f.all_indices := by
  intro i hi
  simp only [CWordFeatures.all_indices, List.mem_map, List.mem_range] at hi
  obtain ⟨n, hn, rfl⟩ := hi
  constructor
  · exact Int.ofNat_nonneg n
  · unfold CWordFeatures.get_num_vectors
    exact Int.ofNat_lt.2 hn

theorem train_total {R : Type} [Field R] (lg : R → R) (h : CLinearHMM R)
    (indizes : List Int) (pc : R)
    (hr : h.features.in_range h.sequence_length h.num_symbols)
    (hv : h.features.valid_indices indizes)
    (hspan : h.features.span_in_alphabet h.num_symbols) :
    ∃ h', h.train lg indizes indizes.length pc = .ok h' := by
  obtain ⟨r, hr1, hl, _⟩ :=
    count_selected_spec h.features h.sequence_length h.num_symbols indizes hr hv
  obtain ⟨t, ht⟩ := normalise_total lg h.features h.sequence_length h.num_symbols
    pc r hl hspan
  exact ⟨_, (train_eq_ok lg h _ indizes _ pc).2 ⟨r, t, hr1, ht, rfl⟩⟩

theorem train_all_total {R : Type} [Field R] (lg : R → R) (h : CLinearHMM R)
    (hr : h.features.in_range h.sequence_length h.num_symbols)
    (hspan : h.features.span_in_alphabet h.num_symbols) :
    ∃ h', h.train_all lg = .ok h' := by
  rw [train_all_eq_train]
  exact train_total lg h _ _ hr (all_indices_valid _) hspan

/-- What any completed `train(indizes, num_indizes, pseudo_count)` leaves behind: the
integer histogram it normalised had `num_params` entries, none negative. -/
theorem train_ok_parts {R : Type} [Field R] (lg : R → R) (h h' : CLinearHMM R)
    (indizes : List Int) (n : Nat) (pc : R) (hrun : h.train lg indizes n pc = .ok h') :
    ∃ ih t, ih.length = h.sequence_length * h.num_symbols ∧ (∀ x ∈ ih, 0 ≤ x) ∧
      normalise lg h.features h.sequence_length h.num_symbols pc ih = .ok t ∧
      h'.hist = some t.1 ∧ h'.log_hist = some t.2 := by
  obtain ⟨ih, t, hc, hn, rfl⟩ := (train_eq_ok lg h h' indizes n pc).1 hrun
  exact ⟨ih, t, length_of_count_selected _ _ _ _ _ _ hc,
    count_selected_nonneg _ _ _ _ _ _ hc, hn, rfl, rfl⟩

/-! ## The likelihood loop and the table setters -/

/-- The likelihood loop returns the accumulated value over the first `len` positions when
all its reads are in bounds. -/
theorem accumulate_spec {R : Type} (op : R → R → R) (a : List R) (ns seq : Nat)
    (v : List Nat) (len : Nat) (d : R) (F : Nat → R)
    (ha : a.length = seq * ns) (h1 : 1 ≤ len) (hlv : len ≤ v.length) (hls : len ≤ seq)
    (hsym : ∀ pos, pos < len → v.getD pos 0 < ns)
    (hF1 : F 1 = a.getD (0 * ns + v.getD 0 0) d)
    (hFs : ∀ i, 1 ≤ i → i < len → F (i + 1) = op (F i) (a.getD (i * ns + v.getD i 0) d)) :
    accumulate op (some a) ns v len = .ok (F len) := by
  have hread : ∀ i, i < len →
      rdN v i = .ok (v.getD i 0) ∧
        rdN a (i * ns + v.getD i 0) = .ok (a.getD (i * ns + v.getD i 0) d) := by
    intro i hi
    have hiv : i < v.length := by omega
    have hidx : i * ns + v.getD i 0 < a.length := by
      rw [ha]; exact flat_index_lt (by omega) (hsym i hi)
    exact ⟨rdN_getD v i 0 hiv, rdN_getD a _ d hidx⟩
  obtain ⟨hv0, ha0⟩ := hread 0 (by omega)
  have ha0' : rdN a (v.getD 0 0) = .ok (F 1) := by
    rw [hF1, ← ha0]; simp
  unfold accumulate
  simp only [table, hv0, ha0']
  obtain ⟨r, hr, hinv⟩ := forLoop_total (accumulate_step op a ns v) (fun i r => r = F i)
    (len - 1) 1 (F 1) rfl (by
      intro i r hi hlt hinv
      have hil : i < len := by omega
      obtain ⟨hvi, hai⟩ := hread i hil
      refine ⟨op r (a.getD (i * ns + v.getD i 0) d), ?_, ?_⟩
      · simp only [accumulate_step, hvi, hai]
      · show op r _ = F (i + 1)
        rw [hFs i hi hil, hinv])
  rw [hr, hinv]
  congr 2
  omega

theorem install_step_eq_ok {R : Type} (g : R → R) (new_values : List R) (i : Nat)
    (t t' : List R × List R) :
    install_step g new_values i t = .ok t' ↔
      ∃ x, new_values[i]? = some x ∧ i < t.1.length ∧ i < t.2.length ∧
        t' = (t.1.set i x, t.2.set i (g x)) := by
  unfold install_step
  cases hx : rdN new_values i with
  | error e =>
    have hn : ∀ x, new_values[i]? ≠ some x := by
      intro x h; rw [(rdN_eq_ok _ _ _).2 h] at hx; cases hx
    simp [hn]
  | ok x =>
    have hs := (rdN_eq_ok _ _ _).1 hx
    by_cases h1 : i < t.1.length
    · have e2 := wrN_of_lt t.1 i x h1
      have e3 : rdN (t.1.set i x) i = .ok x := (rdN_eq_ok _ _ _).2 (List.getElem?_set_self h1)
      by_cases h2 : i < t.2.length
      · have e4 := wrN_of_lt t.2 i (g x) h2
        simp only [e2, e3, e4, hs, Option.some.injEq, Except.ok.injEq]
        constructor
        · intro h; exact ⟨x, rfl, h1, h2, h.symm⟩
        · rintro ⟨y, rfl, _, _, h⟩; exact h.symm
      · have e4 : wrN t.2 i (g x) = .error .out_of_bounds := by simp [wrN, h2]
        simp only [e2, e3, e4]
        simp [h2]
    · have e2 : wrN t.1 i x = .error .out_of_bounds := by simp [wrN, h1]
      simp only [e2]
      simp [h1]

/-- Any completed run of the setter loop has copied the first `n` new values and stored
`g` of each in the other table. -/
theorem install_sound {R : Type} (g : R → R) (new_values : List R) (n : Nat)
    (t t' : List R × List R) (hrun : forLoop (install_step g new_values) 0 n t = .ok t') :
    ∀ i, i < n → ∃ x, new_values[i]? = some x ∧ t'.1[i]? = some x ∧ t'.2[i]? = some (g x) := by
  have key := forLoop_sound (install_step g new_values)
    (fun k s => ∀ i, i < k →
      ∃ x, new_values[i]? = some x ∧ s.1[i]? = some x ∧ s.2[i]? = some (g x))
    n 0 t t' (fun i hi => absurd hi (Nat.not_lt_zero i)) ?_ hrun
  · simpa using key
  · intro k s s' _ _ hinv hstep
    obtain ⟨x, hx, h1, h2, rfl⟩ := (install_step_eq_ok g new_values k s s').1 hstep
    intro i hi
    by_cases hik : i = k
    · subst hik
      exact ⟨x, hx, List.getElem?_set_self h1, List.getElem?_set_self h2⟩
    · obtain ⟨y, hy, hy1, hy2⟩ := hinv i (by omega)
      refine ⟨y, hy, ?_, ?_⟩
      · show (s.1.set k x)[i]? = _
        rw [List.getElem?_set_ne (Ne.symm hik)]; exact hy1
      · show (s.2.set k (g x))[i]? = _
        rw [List.getElem?_set_ne (Ne.symm hik)]; exact hy2

theorem install_total {R : Type} (g : R → R) (new_values : List R) (n : Nat)
    (t : List R × List R) (hn : n ≤ new_values.length) (h1 : n ≤ t.1.length)
    (h2 : n ≤ t.2.length) :
    ∃ t', forLoop (install_step g new_values) 0 n t = .ok t' := by
  obtain ⟨t', ht', _⟩ := forLoop_total (install_step g new_values)
    (fun _ s => n ≤ s.1.length ∧ n ≤ s.2.length) n 0 t ⟨h1, h2⟩ (by
      intro i s _ hi ⟨hs1, hs2⟩
      have hin : i < new_values.length := by omega
      refine ⟨_, (install_step_eq_ok g new_values i s _).2
        ⟨new_values[i], List.getElem?_eq_getElem hin, by omega, by omega, rfl⟩, ?_, ?_⟩
      · simp [hs1]
      · simp [hs2])
  exact ⟨t', ht'⟩

/-- When the new values and both tables have room for `n` entries, the setter loop
completes, keeps that room, copies the first `n` new values into the first table and
stores `g` of each in the second. -/
theorem install_spec {R : Type} (g : R → R) (new_values : List R) (n : Nat)
    (t : List R × List R) (hn : n ≤ new_values.length) (h1 : n ≤ t.1.length)
    (h2 : n ≤ t.2.length) :
    ∃ t', forLoop (install_step g new_values) 0 n t = .ok t' ∧
      n ≤ t'.1.length ∧ n ≤ t'.2.length ∧
      ∀ i, i < n →
        ∃ x, new_values[i]? = some x ∧ t'.1[i]? = some x ∧ t'.2[i]? = some (g x) := by
  obtain ⟨t', ht', hl1, hl2⟩ := forLoop_total (install_step g new_values)
    (fun _ s => n ≤ s.1.length ∧ n ≤ s.2.length) n 0 t ⟨h1, h2⟩ (by
      intro i s _ hi ⟨hs1, hs2⟩
      have hin : i < new_values.length := by omega
      refine ⟨_, (install_step_eq_ok g new_values i s _).2
        ⟨new_values[i], List.getElem?_eq_getElem hin, by omega, by omega, rfl⟩, ?_, ?_⟩
      · simp [hs1]
      · simp [hs2])
  exact ⟨t', ht', hl1, hl2, install_sound g new_values n t t' ht'⟩

theorem allocate_if_null_length {R : Type} [Field R] (tbl : Option (List R)) (n : Nat)
    (h : ∀ a, tbl = some a → n ≤ a.length) : n ≤ (allocate_if_null tbl n).length := by
  cases tbl with
  | none => simp [allocate_if_null]
  | some a => exact h a rfl

/-- With room for `num_params` entries, `set_hist` completes: `hist` holds the new values
and `log_hist` holds `lg` of each, for whatever function `lg` is passed as `log`. -/
theorem set_hist_spec {R : Type} [Field R] (lg : R → R) (h : CLinearHMM R)
    (new_hist : List R) (hsz : tables_sized h) (hlen : h.num_params ≤ new_hist.length) :
    ∃ hs ls, h.set_hist lg new_hist = .ok { h with hist := some hs, log_hist := some ls } ∧
      h.num_params ≤ hs.length ∧ h.num_params ≤ ls.length ∧
      ∀ i, i < h.num_params →
        ∃ x, new_hist[i]? = some x ∧ hs[i]? = some x ∧ ls[i]? = some (lg x) := by
  obtain ⟨t, ht, hl1, hl2, hP⟩ := install_spec lg new_hist h.num_params
    (allocate_if_null h.hist h.num_params, allocate_if_null h.log_hist h.num_params)
    hlen (allocate_if_null_length _ _ hsz.1) (allocate_if_null_length _ _ hsz.2)
  refine ⟨t.1, t.2, ?_, hl1, hl2, hP⟩
  unfold CLinearHMM.set_hist
  rw [ht]

/-- With room for `num_params` entries, `set_log_hist` completes: `log_hist` holds the new
values and `hist` holds `ex` of each, for whatever function `ex` is passed as `exp`. -/
theorem set_log_hist_spec {R : Type} [Field R] (ex : R → R) (h : CLinearHMM R)
    (new_log_hist : List R) (hsz : tables_sized h)
    (hlen : h.num_params ≤ new_log_hist.length) :
    ∃ hs ls, h.set_log_hist ex new_log_hist =
        .ok { h with hist := some hs, log_hist := some ls } ∧
      h.num_params ≤ hs.length ∧ h.num_params ≤ ls.length ∧
      ∀ i, i < h.num_params →
        ∃ x, new_log_hist[i]? = some x ∧ ls[i]? = some x ∧ hs[i]? = some (ex x) := by
  obtain ⟨t, ht, hl1, hl2, hP⟩ := install_spec ex new_log_hist h.num_params
    (allocate_if_null h.log_hist h.num_params, allocate_if_null h.hist h.num_params)
    hlen (allocate_if_null_length _ _ hsz.2) (allocate_if_null_length _ _ hsz.1)
  refine ⟨t.2, t.1, ?_, hl2, hl1, hP⟩
  unfold CLinearHMM.set_log_hist
  rw [ht]

theorem tables_sized_of_set {R : Type} (h : CLinearHMM R) (hs ls : List R)
    (h1 : h.num_params ≤ hs.length) (h2 : h.num_params ≤ ls.length) :
    tables_sized ({ h with hist := some hs, log_hist := some ls } : CLinearHMM R) := by
  constructor
  · intro a ha
    have : a = hs := by injection ha with ha; exact ha.symm
    subst this; exact h1
  · intro a ha
    have : a = ls := by injection ha with ha; exact ha.symm
    subst this; exact h2

/-! ## The worked examples are well formed -/

theorem single_example_in_range : single_example.in_range 1 2 := by
  simp [CWordFeatures.in_range, single_example]

theorem single_example_valid : single_example.valid_indices [0] := by
  simp [CWordFeatures.valid_indices, single_example, CWordFeatures.get_num_vectors]

theorem single_example_span : single_example.span_in_alphabet 2 := by
  intro j hj k hk
  have hk2 : k < 2 := hk
  show j % 65536 / 2 * 2 + k < 2
  omega

theorem two_examples_in_range : two_examples.in_range 1 2 := by
  simp [CWordFeatures.in_range, two_examples]

theorem two_examples_valid : two_examples.valid_indices [0, 1] := by
  simp [CWordFeatures.valid_indices, two_examples, CWordFeatures.get_num_vectors]

theorem two_examples_span : two_examples.span_in_alphabet 2 := by
  intro j hj k hk
  have hk2 : k < 2 := hk
  show j % 65536 / 2 * 2 + k < 2
  omega

/-! ## CustomKernel: lookup -/

/-- C1. With the flattened upper triangle of a 3 by 3 matrix `M` in `kmatrix`
(`[M00, M01, M02, M11, M12, M22]`, `num_cols = 3`), `compute(0,0)` returns `M00`, but
`compute(1,1)` reads list position 2 and returns `M02` instead of the diagonal entry
`M11` at position 3, `compute(2,2)` reads position 3 and returns `M11` instead of `M22`
at position 5, and `compute(0,1)` subscripts `kmatrix` with `-1`. -/
theorem compute_misreads_triangle {R : Type} (M : Nat → Nat → R) :
    (packed_kernel 3 M).kmatrix = [M 0 0, M 0 1, M 0 2, M 1 1, M 1 2, M 2 2] ∧
    (packed_kernel 3 M).compute 0 0 = .ok (M 0 0) ∧
    CCustomKernel.address 3 1 1 = 2 ∧
    (packed_kernel 3 M).compute 1 1 = .ok (M 0 2) ∧
    CCustomKernel.address 3 2 2 = 3 ∧
    (packed_kernel 3 M).compute 2 2 = .ok (M 1 1) ∧
    CCustomKernel.address 3 0 1 = -1 ∧
    (packed_kernel 3 M).compute 0 1 = .error .out_of_bounds :=
  ⟨rfl, rfl, by decide, rfl, by decide, rfl, by decide, rfl⟩

/-- C2. For every stored `kmatrix`, every `num_cols` and all indices `i`, `j`,
`compute(i,j)` and `compute(j,i)` subscript `kmatrix` with the same address and so
give the same outcome. -/
theorem compute_symmetric {R : Type} (k : CCustomKernel R) (i j : Int) :
    CCustomKernel.address k.num_cols i j = CCustomKernel.address k.num_cols j i ∧
      k.compute i j = k.compute j i := by
  have haddr : CCustomKernel.address k.num_cols i j = CCustomKernel.address k.num_cols j i := by
    unfold CCustomKernel.address
    rcases lt_trichotomy i j with h | h | h
    · rw [if_pos h, if_neg (by omega)]
    · subst h; rfl
    · rw [if_neg (by omega), if_pos h]
  exact ⟨haddr, by unfold CCustomKernel.compute; rw [haddr]⟩

/-- C3. For `num_cols = 3` the two different index pairs `(0,0)` and `(1,2)`, both with
`i <= j < 3`, are sent to the same address `0` of `kmatrix`. -/
theorem address_collision :
    (0 : Int) ≤ 0 ∧ (0 : Int) ≤ 0 ∧ (0 : Int) < 3 ∧ (0 : Int) ≤ 1 ∧ (1 : Int) ≤ 2 ∧
      (2 : Int) < 3 ∧ ((0 : Int), (0 : Int)) ≠ (1, 2) ∧
      CCustomKernel.address 3 0 0 = 0 ∧ CCustomKernel.address 3 1 2 = 0 := by
  decide

/-! ## LinearHMM: training -/

/-- C4. For a feature collection whose vectors have at most `sequence_length` entries
and symbols below `num_symbols`, an index list with all indices in `[0, num_vectors)`
and any `pseudo_count`: after `train(indizes, num_indizes, pseudo_count)` the table
`hist` has `num_params` entries and
`hist[pos*num_symbols+sym] = (count(pos,sym) + pseudo_count) /
(sum over k < original_num_symbols of count(pos, base(sym)+k) +
original_num_symbols*pseudo_count)`; and the call does complete whenever the span of
every masked base lies inside the alphabet. -/
theorem train_formula {R : Type} [Field R] (lg : R → R) (h : CLinearHMM R)
    (indizes : List Int) (pseudo_count : R)
    (hr : h.features.in_range h.sequence_length h.num_symbols)
    (hv : h.features.valid_indices indizes) :
    (∀ h', h.train lg indizes indizes.length pseudo_count = .ok h' →
      ∃ hist, h'.hist = some hist ∧ hist.length = h.num_params ∧
        ∀ pos sym, pos < h.sequence_length → sym < h.num_symbols →
          hist[pos * h.num_symbols + sym]? =
            some (((count h.features indizes pos sym : R) + pseudo_count) /
              (∑ k in Finset.range h.features.original_num_symbols,
                  (count h.features indizes pos (h.features.base sym + k) : R) +
                (h.features.original_num_symbols : R) * pseudo_count))) ∧
    (h.features.span_in_alphabet h.num_symbols →
      ∃ h', h.train lg indizes indizes.length pseudo_count = .ok h') := by
  obtain ⟨r, hr1, hl, hP⟩ :=
    count_selected_spec h.features h.sequence_length h.num_symbols indizes hr hv
  constructor
  · intro h' hrun
    obtain ⟨ih, t, hc, hn, rfl⟩ := (train_eq_ok lg h h' indizes _ pseudo_count).1 hrun
    have hih : ih = r := by
      have := hc.symm.trans hr1
      injection this
    subst hih
    obtain ⟨⟨hl1, _⟩, hf⟩ := normalise_sound lg _ _ _ _ _ _ hn
    refine ⟨t.1, rfl, hl1, ?_⟩
    intro pos sym hp hs
    have hspan := span_of_filled lg h.features h.sequence_length h.num_symbols
      pseudo_count ih t hl (by omega) hf
    obtain ⟨_, _, h3, _⟩ := hf _ (flat_index_lt hp hs)
    obtain ⟨hd, hmod⟩ := flat_div_mod (i := pos) hs
    rw [hd, hmod] at h3
    rw [h3, normalised_of_counts h.features h.sequence_length h.num_symbols pseudo_count
      ih indizes hP hspan pos sym hp hs]
  · intro hspan
    obtain ⟨t, ht⟩ := normalise_total lg h.features h.sequence_length h.num_symbols
      pseudo_count r hl hspan
    exact ⟨_, (train_eq_ok lg h _ indizes _ pseudo_count).2 ⟨r, t, hr1, ht, rfl⟩⟩

theorem train_formula_witness :
    single_example.in_range 1 2 ∧ single_example.valid_indices [0] ∧
      ∃ h' hist, (CLinearHMM.create single_example (1 : ℝ)).train Real.log [0] 1 1 = .ok h' ∧
        h'.hist = some hist ∧ hist.length = 2 ∧
        hist[0]? = some (2 / 3) ∧ hist[1]? = some (1 / 3) := by
  have hr : single_example.in_range 1 2 := by
    simp [CWordFeatures.in_range, single_example]
  have hv : single_example.valid_indices [0] := by
    simp [CWordFeatures.valid_indices, single_example, CWordFeatures.get_num_vectors]
  have hs : single_example.span_in_alphabet 2 := by
    intro j hj k hk
    have hk2 : k < 2 := hk
    show j % 65536 / 2 * 2 + k < 2
    omega
  obtain ⟨hsound, htotal⟩ :=
    train_formula Real.log (CLinearHMM.create single_example (1 : ℝ)) [0] 1 hr hv
  obtain ⟨h', hrun⟩ := htotal hs
  obtain ⟨hist, hh, hlen, hform⟩ := hsound h' hrun
  refine ⟨hr, hv, h', hist, hrun, hh, hlen, ?_, ?_⟩
  · have := hform 0 0 (by decide) (by decide)
    rw [show 0 * (CLinearHMM.create single_example (1 : ℝ)).num_symbols + 0 = 0 from rfl]
      at this
    rw [this]
    simp [count, selected, single_example, CLinearHMM.create, CWordFeatures.base,
      Finset.sum_range_succ]
    norm_num
  · have := hform 0 1 (by decide) (by decide)
    rw [show 0 * (CLinearHMM.create single_example (1 : ℝ)).num_symbols + 1 = 1 from rfl]
      at this
    rw [this]
    simp [count, selected, single_example, CLinearHMM.create, CWordFeatures.base,
      Finset.sum_range_succ]
    norm_num

/-- C6. For every trained HMM (either `train` overload, valid indices, symbols in range,
`original_num_symbols >= 1`): if `pseudo_count > 0` then `hist[pos*num_symbols+sym] > 0`
for every position below `sequence_length` and every symbol below `num_symbols`. The
calls complete whenever every span lies in the alphabet. -/
theorem train_hist_positive {R : Type} [LinearOrderedField R] (lg : R → R)
    (h : CLinearHMM R) (indizes : List Int) (pseudo_count : R)
    (hpc : 0 < pseudo_count) (horig : 1 ≤ h.features.original_num_symbols)
    (hr : h.features.in_range h.sequence_length h.num_symbols)
    (hv : h.features.valid_indices indizes) :
    (∀ h', h.train lg indizes indizes.length pseudo_count = .ok h' →
      ∃ hist, h'.hist = some hist ∧
        ∀ pos sym, pos < h.sequence_length → sym < h.num_symbols →
          ∃ x, hist[pos * h.num_symbols + sym]? = some x ∧ 0 < x) ∧
    (∀ h', ({ h with pseudo_count := pseudo_count } : CLinearHMM R).train_all lg = .ok h' →
      ∃ hist, h'.hist = some hist ∧
        ∀ pos sym, pos < h.sequence_length → sym < h.num_symbols →
          ∃ x, hist[pos * h.num_symbols + sym]? = some x ∧ 0 < x) ∧
    (h.features.span_in_alphabet h.num_symbols →
      (∃ h', h.train lg indizes indizes.length pseudo_count = .ok h') ∧
      ∃ h', ({ h with pseudo_count := pseudo_count } : CLinearHMM R).train_all lg = .ok h') := by
  refine ⟨?_, ?_, ?_⟩
  · intro h' hrun
    obtain ⟨ih, t, _, hnn, hn, hh, _⟩ := train_ok_parts lg h h' indizes _ _ hrun
    exact ⟨t.1, hh, normalise_positive lg _ _ _ _ _ _ hn hnn hpc horig⟩
  · intro h' hrun
    rw [train_all_eq_train] at hrun
    obtain ⟨ih, t, _, hnn, hn, hh, _⟩ := train_ok_parts lg _ h' _ _ _ hrun
    exact ⟨t.1, hh, normalise_positive lg _ _ _ _ _ _ hn hnn hpc horig⟩
  · intro hspan
    exact ⟨train_total lg h indizes pseudo_count hr hv hspan,
      train_all_total lg { h with pseudo_count := pseudo_count } hr hspan⟩

theorem train_hist_positive_witness :
    (0 : ℝ) < 1 ∧ 1 ≤ single_example.original_num_symbols ∧
      single_example.in_range 1 2 ∧ single_example.valid_indices [0] ∧
      ∃ h' hist, (CLinearHMM.create single_example (1 : ℝ)).train Real.log [0] 1 1 = .ok h' ∧
        h'.hist = some hist ∧
        (∃ x, hist[0]? = some x ∧ 0 < x) ∧ ∃ y, hist[1]? = some y ∧ 0 < y := by
  have hthm := train_hist_positive Real.log (CLinearHMM.create single_example (1 : ℝ))
    [0] 1 one_pos (by decide) single_example_in_range single_example_valid
  obtain ⟨h', hrun⟩ := (hthm.2.2 single_example_span).1
  obtain ⟨hist, hh, hpos⟩ := hthm.1 h' hrun
  exact ⟨one_pos, by decide, single_example_in_range, single_example_valid,
    h', hist, hrun, hh, hpos 0 0 (by decide) (by decide), hpos 0 1 (by decide) (by decide)⟩

/-! ## LinearHMM: likelihoods and derivative -/

/-- C7. For a sequence of `len >= 1` symbols below `num_symbols`, `len` at most
`sequence_length`, `get_log_likelihood_example(vector, len)` returns the sum over all
positions `pos < len` of `log_hist[pos*num_symbols + vector[pos]]`, and so does the
by-index form for an example equal to the vector; the special first term
`log_hist[vector[0]]` is the `pos = 0` term of that sum. -/
theorem log_likelihood_is_sum {R : Type} [Field R] (h : CLinearHMM R) (lh : List R)
    (v : List Nat) (len : Nat) (hlh : h.log_hist = some lh)
    (hlen : lh.length = h.num_params) (h1 : 1 ≤ len) (hlv : len ≤ v.length)
    (hls : len ≤ h.sequence_length) (hsym : ∀ pos, pos < len → v.getD pos 0 < h.num_symbols) :
    h.get_log_likelihood_example v len =
        .ok (∑ pos in Finset.range len, lh.getD (pos * h.num_symbols + v.getD pos 0) 0) ∧
      (∀ pos, pos < len → pos * h.num_symbols + v.getD pos 0 < lh.length) ∧
      (∀ num_example, h.features.get_feature_vector num_example = .ok v → len = v.length →
        h.get_log_likelihood_example_at num_example =
          .ok (∑ pos in Finset.range len,
                lh.getD (pos * h.num_symbols + v.getD pos 0) 0)) ∧
      rdN lh (v.getD 0 0) = rdN lh (0 * h.num_symbols + v.getD 0 0) := by
  have hmain : accumulate (fun result x => result + x) (some lh) h.num_symbols v len =
      .ok (∑ pos in Finset.range len, lh.getD (pos * h.num_symbols + v.getD pos 0) 0) :=
    accumulate_spec (fun result x => result + x) lh h.num_symbols h.sequence_length v len 0
      (fun n => ∑ pos in Finset.range n, lh.getD (pos * h.num_symbols + v.getD pos 0) 0)
      hlen h1 hlv hls hsym (by simp) (fun i _ _ => Finset.sum_range_succ _ i)
  refine ⟨?_, ?_, ?_, by simp⟩
  · unfold CLinearHMM.get_log_likelihood_example
    rw [hlh]; exact hmain
  · intro pos hp
    rw [hlen]
    exact flat_index_lt (by omega) (hsym pos hp)
  · intro e he hl
    unfold CLinearHMM.get_log_likelihood_example_at
    rw [he, hlh]
    simp only
    rw [← hl]; exact hmain

theorem log_likelihood_is_sum_witness :
    tabled_hmm.log_hist = some [1, 2, 3, 4] ∧
      tabled_hmm.get_log_likelihood_example [0, 1] 2 = .ok (1 + 4) ∧
      tabled_hmm.get_log_likelihood_example_at 0 = .ok (1 + 4) := by
  have hthm := log_likelihood_is_sum tabled_hmm [1, 2, 3, 4] [0, 1] 2 rfl rfl
    (by decide) (by decide) (by decide)
    (by intro pos hp
        have h2 : pos = 0 ∨ pos = 1 := by omega
        rcases h2 with rfl | rfl <;> decide)
  refine ⟨rfl, ?_, ?_⟩
  · rw [hthm.1]
    simp [Finset.sum_range_succ, tabled_hmm]
  · rw [hthm.2.2.1 0 rfl rfl]
    simp [Finset.sum_range_succ, tabled_hmm]

/-- C9. On a model with two positions and two symbols and the example `[0, 0]`,
parameter `2` stands for symbol `2 % 2 = 0` at position `2 / 2 = 1`, which is the symbol
the example has there, so the derivative should be `1 / hist[2]` (that is `2` for the
uniform table, where `hist[2] = 1/2`); the code compares the symbol with
`param_num / position = 2` and returns `0`, whatever the tables hold. -/
theorem log_derivative_misses_match {R : Type} [Field R] (hist log_hist : Option (List R))
    (pseudo_count : R) :
    (two_by_two hist log_hist pseudo_count).features.get_feature_vector 0 = .ok [0, 0] ∧
      ([0, 0] : List Nat)[2 / (two_by_two hist log_hist pseudo_count).num_symbols]? =
        some (2 % (two_by_two hist log_hist pseudo_count).num_symbols) ∧
      cdiv 2 (two_by_two hist log_hist pseudo_count).num_symbols = .ok 1 ∧
      cdiv 2 1 = .ok 2 ∧
      (two_by_two hist log_hist pseudo_count).get_log_derivative 2 0 = .ok 0 ∧
      (two_by_two (some [1 / 2, 1 / 2, 1 / 2, 1 / 2]) none (1 : ℚ)).get_log_derivative 2 0 =
        .ok 0 ∧
      (1 : ℚ) / (1 / 2) = 2 :=
  ⟨rfl, by simp [two_by_two], by simp [two_by_two, cdiv], rfl,
    by simp [CLinearHMM.get_log_derivative, two_by_two, CWordFeatures.get_feature_vector,
      rd, rdN, cdiv],
    rfl, by norm_num⟩

/-! ## LinearHMM: failures and repetitions of train -/

/-- C12. With features in range, `train(indizes, num_indizes, pseudo_count)` reports a
failed assertion if and only if some index of the list lies outside
`[0, num_vectors)`. It then stops at the first such index `v0`: the indices before it
are valid and have been counted (the histogram holds exactly their counts), and the
step at `v0` fails on the assertion before any vector is fetched, whatever the
histogram. -/
theorem train_rejects_bad_indices {R : Type} [Field R] (lg : R → R) (h : CLinearHMM R)
    (indizes : List Int) (pseudo_count : R)
    (hr : h.features.in_range h.sequence_length h.num_symbols) :
    ((∃ st, h.train lg indizes indizes.length pseudo_count = .error (.assertion, st)) ↔
      ¬ h.features.valid_indices indizes) ∧
    (¬ h.features.valid_indices indizes →
      ∃ v0 bad, v0 < indizes.length ∧ indizes[v0]? = some bad ∧
        ¬ (0 ≤ bad ∧ bad < h.features.get_num_vectors) ∧
        h.features.valid_indices (indizes.take v0) ∧
        (∃ r, forLoop (count_selected h.features h.num_symbols indizes) 0 v0
              (List.replicate h.num_params 0) = .ok r ∧
          ∀ pos sym, pos < h.sequence_length → sym < h.num_symbols →
            r[pos * h.num_symbols + sym]? =
              some (count h.features (indizes.take v0) pos sym : Int)) ∧
        (∀ ih, count_selected h.features h.num_symbols indizes v0 ih = .error .assertion) ∧
        h.train lg indizes indizes.length pseudo_count =
          .error (.assertion, h.delete_tables)) := by
  have hbadcase : ¬ h.features.valid_indices indizes →
      ∃ v0 bad, v0 < indizes.length ∧ indizes[v0]? = some bad ∧
        ¬ (0 ≤ bad ∧ bad < h.features.get_num_vectors) ∧
        h.features.valid_indices (indizes.take v0) ∧
        (∃ r, forLoop (count_selected h.features h.num_symbols indizes) 0 v0
              (List.replicate h.num_params 0) = .ok r ∧
          ∀ pos sym, pos < h.sequence_length → sym < h.num_symbols →
            r[pos * h.num_symbols + sym]? =
              some (count h.features (indizes.take v0) pos sym : Int)) ∧
        (∀ ih, count_selected h.features h.num_symbols indizes v0 ih = .error .assertion) ∧
        h.train lg indizes indizes.length pseudo_count =
          .error (.assertion, h.delete_tables) := by
    intro hnv
    obtain ⟨pre, bad, post, he, hpre, hbad⟩ := first_bad_index h.features indizes hnv
    subst he
    obtain ⟨hhead, hloop⟩ := count_loop_bad_index h.features h.sequence_length
      h.num_symbols pre post bad hr hpre hbad
    have htake : (pre ++ bad :: post).take pre.length = pre := by simp
    refine ⟨pre.length, bad, by simp, ?_, hbad, by rw [htake]; exact hpre, ?_,
      fun ih => count_selected_at_bad h.features h.num_symbols pre post bad hbad ih, ?_⟩
    · rw [List.getElem?_append_right (Nat.le_refl _)]; simp
    · rw [htake]; exact hhead
    · unfold CLinearHMM.train
      have hloop' : forLoop (count_selected h.features h.num_symbols (pre ++ bad :: post)) 0
          (pre ++ bad :: post).length (List.replicate h.num_params 0) =
            .error .assertion := hloop
      rw [hloop']
  refine ⟨⟨?_, ?_⟩, hbadcase⟩
  · rintro ⟨st, hrun⟩ hv
    unfold CLinearHMM.train at hrun
    cases hc : forLoop (count_selected h.features h.num_symbols indizes) 0 indizes.length
        (List.replicate h.num_params 0) with
    | error e1 =>
      have hk := forLoop_error _ (fun e => e = Fault.out_of_bounds) _ _ _ e1
        (fun i s e' _ _ hb => count_selected_error_valid h.features h.num_symbols indizes
          hv i s e' hb) hc
      rw [hc] at hrun
      simp only [Except.error.injEq, Prod.mk.injEq] at hrun
      rw [hk] at hrun
      exact absurd hrun.1 (by decide)
    | ok ih =>
      rw [hc] at hrun
      cases hn : normalise lg h.features h.sequence_length h.num_symbols pseudo_count ih with
      | error e1 =>
        have hk := normalise_error lg _ _ _ _ _ e1 hn
        simp only [hn, Except.error.injEq, Prod.mk.injEq] at hrun
        rw [hk] at hrun
        exact absurd hrun.1 (by decide)
      | ok t => simp [hn] at hrun
  · intro hnv
    obtain ⟨_, _, _, _, _, _, _, _, hrun⟩ := hbadcase hnv
    exact ⟨_, hrun⟩

theorem train_rejects_bad_indices_witness :
    single_example.in_range 1 2 ∧ ¬ single_example.valid_indices [0, 5] ∧
      (CLinearHMM.create single_example (1 : ℝ)).train Real.log [0, 5] 2 1 =
        .error (.assertion, (CLinearHMM.create single_example (1 : ℝ)).delete_tables) := by
  have hnv : ¬ single_example.valid_indices [0, 5] := by
    intro hv
    have h5 := (hv 5 (by simp)).2
    simp [CWordFeatures.get_num_vectors, single_example] at h5
  obtain ⟨_, _, _, _, _, _, _, _, hrun⟩ :=
    (train_rejects_bad_indices Real.log (CLinearHMM.create single_example (1 : ℝ)) [0, 5] 1
      single_example_in_range).2 hnv
  exact ⟨single_example_in_range, hnv, hrun⟩

/-- C13 as stated fails. The model `certain_hmm` holds both tables; `train` with the
index `7` (there is one example) fails on the assertion, and the object it leaves
has no tables: they were deleted before the index was looked at. -/
theorem train_failure_loses_tables :
    certain_hmm.hist = some [1, 1, 1, 1] ∧ certain_hmm.log_hist = some [0, 0, 0, 0] ∧
      certain_hmm.train Real.log [7] 1 1 = .error (.assertion, certain_hmm.delete_tables) ∧
      ¬ (∀ e st, certain_hmm.train Real.log [7] 1 1 = .error (e, st) →
          st.hist = certain_hmm.hist ∧ st.log_hist = certain_hmm.log_hist) := by
  refine ⟨rfl, rfl, rfl, ?_⟩
  intro hclaim
  have h := (hclaim .assertion certain_hmm.delete_tables rfl).1
  have h1 : certain_hmm.delete_tables.hist = none := rfl
  have h2 : certain_hmm.hist = some [1, 1, 1, 1] := rfl
  rw [h1, h2] at h
  cases h

/-- C13, amended. `train(indizes, num_indizes, pseudo_count)` discards both tables
first: whenever it fails, the object is the one before the call with both tables
deleted (no table is held any more, everything else is unchanged); new tables, of
`num_params` entries each, are installed only when training completes. -/
theorem train_failure_state {R : Type} [Field R] (lg : R → R) (h : CLinearHMM R)
    (indizes : List Int) (num_indizes : Nat) (pseudo_count : R) :
    (∀ e st, h.train lg indizes num_indizes pseudo_count = .error (e, st) →
      st = h.delete_tables ∧ st.hist = none ∧ st.log_hist = none) ∧
    (∀ h', h.train lg indizes num_indizes pseudo_count = .ok h' →
      ∃ hs ls, h'.hist = some hs ∧ h'.log_hist = some ls ∧
        hs.length = h.num_params ∧ ls.length = h.num_params) := by
  constructor
  · intro e st hrun
    unfold CLinearHMM.train at hrun
    cases hc : forLoop (count_selected h.features h.num_symbols indizes) 0 num_indizes
        (List.replicate h.num_params 0) with
    | error e1 =>
      rw [hc] at hrun
      simp only [Except.error.injEq, Prod.mk.injEq] at hrun
      exact ⟨hrun.2.symm, by rw [← hrun.2]; rfl, by rw [← hrun.2]; rfl⟩
    | ok ih =>
      rw [hc] at hrun
      cases hn : normalise lg h.features h.sequence_length h.num_symbols pseudo_count ih with
      | error e1 =>
        simp only [hn, Except.error.injEq, Prod.mk.injEq] at hrun
        exact ⟨hrun.2.symm, by rw [← hrun.2]; rfl, by rw [← hrun.2]; rfl⟩
      | ok t => simp [hn] at hrun
  · intro h' hrun
    obtain ⟨ih, t, _, _, hn, hh, hl⟩ := train_ok_parts lg h h' indizes _ _ hrun
    obtain ⟨⟨hl1, hl2⟩, _⟩ := normalise_sound lg _ _ _ _ _ _ hn
    exact ⟨t.1, t.2, hh, hl, hl1, hl2⟩

theorem train_failure_state_witness :
    ∃ e st, certain_hmm.train Real.log [7] 1 1 = .error (e, st) ∧
      st = certain_hmm.delete_tables ∧ st.hist = none ∧ st.log_hist = none :=
  ⟨.assertion, certain_hmm.delete_tables, rfl,
    (train_failure_state Real.log certain_hmm [7] 1 1).1 _ _ rfl⟩

/-- C14. The outcome of `train(indizes, num_indizes, pseudo_count)`, and of `train()`,
does not depend on the tables held before the call: replacing them by any other tables
(or by none) gives the same outcome; and training a second time with the same
arguments reproduces the trained model. -/
theorem train_ignores_prior_tables {R : Type} [Field R] (lg : R → R) (h : CLinearHMM R)
    (hist log_hist : Option (List R)) (indizes : List Int) (num_indizes : Nat)
    (pseudo_count : R) :
    ({ h with hist := hist, log_hist := log_hist } : CLinearHMM R).train lg indizes
        num_indizes pseudo_count = h.train lg indizes num_indizes pseudo_count ∧
    ({ h with hist := hist, log_hist := log_hist } : CLinearHMM R).train_all lg =
        h.train_all lg ∧
    (∀ h', h.train lg indizes num_indizes pseudo_count = .ok h' →
      h'.train lg indizes num_indizes pseudo_count = .ok h') ∧
    (∀ h', h.train_all lg = .ok h' → h'.train_all lg = .ok h') := by
  refine ⟨rfl, rfl, ?_, ?_⟩
  · intro h' hrun
    obtain ⟨ih, t, _, _, rfl⟩ := (train_eq_ok lg h h' indizes _ pseudo_count).1 hrun
    exact hrun
  · intro h' hrun
    have hrun' := hrun
    rw [train_all_eq_train] at hrun'
    obtain ⟨ih, t, _, _, rfl⟩ := (train_eq_ok lg h h' _ _ _).1 hrun'
    exact hrun

theorem train_ignores_prior_tables_witness :
    (CLinearHMM.create single_example (1 : ℝ)).train Real.log [0] 1 1 =
      ({ CLinearHMM.create single_example (1 : ℝ) with
          hist := some [1, 1], log_hist := some [0, 0] } : CLinearHMM ℝ).train
        Real.log [0] 1 1 :=
  (train_ignores_prior_tables Real.log (CLinearHMM.create single_example (1 : ℝ))
    (some [1, 1]) (some [0, 0]) [0] 1 1).1.symm

/-! ## LatentFeatures: checked sample access -/

/-- C15. For a container holding `n` samples and every index, `get_sample(idx)` reports
an error if and only if `idx < 0` or `idx >= get_num_vectors()`, otherwise it returns
the sample stored at position `idx`; in no case is the underlying array read outside
its bounds. -/
theorem get_sample_checked {D : Type} (lf : CLatentFeatures D) (idx : Int) :
    ((∃ e, lf.get_sample idx = .error e) ↔ (idx < 0 ∨ idx ≥ lf.get_num_vectors)) ∧
    (∀ a, lf.m_samples = some a → lf.get_num_vectors = (a.length : Int)) ∧
    (∀ a, lf.m_samples = some a → 0 ≤ idx → idx < lf.get_num_vectors →
      ∃ x, a[idx.toNat]? = some x ∧ lf.get_sample idx = .ok x) ∧
    lf.get_sample idx ≠ .error .out_of_bounds := by
  cases hm : lf.m_samples with
  | none =>
    have hn : lf.get_num_vectors = 0 := by simp [CLatentFeatures.get_num_vectors, hm]
    have hg : lf.get_sample idx = .error .assertion := by
      simp [CLatentFeatures.get_sample, ASSERT, hm]
    refine ⟨?_, ?_, ?_, ?_⟩
    · rw [hg, hn]
      constructor
      · intro _; omega
      · intro _; exact ⟨_, rfl⟩
    · intro a ha; cases ha
    · intro a ha; cases ha
    · rw [hg]; intro h; cases h
  | some a =>
    have hn : lf.get_num_vectors = (a.length : Int) := by
      simp [CLatentFeatures.get_num_vectors, hm]
    by_cases hc : idx < 0 ∨ idx ≥ lf.get_num_vectors
    · have hg : lf.get_sample idx = .error .sg_error := by
        simp [CLatentFeatures.get_sample, ASSERT, SG_ERROR, hm, hc]
      refine ⟨?_, ?_, ?_, ?_⟩
      · rw [hg]; exact ⟨fun _ => hc, fun _ => ⟨_, rfl⟩⟩
      · intro b hb; injection hb with hb; subst hb; exact hn
      · intro b _ h0 h1; exfalso; rcases hc with h | h <;> omega
      · rw [hg]; intro h; cases h
    · have h0 : 0 ≤ idx := by omega
      have h1 : idx.toNat < a.length := by omega
      have hg : lf.get_sample idx = .ok a[idx.toNat] := by
        simp [CLatentFeatures.get_sample, ASSERT, SG_ERROR, get_element, hm, hc, rd, rdN,
          h0, List.getElem?_eq_getElem h1]
      refine ⟨?_, ?_, ?_, ?_⟩
      · rw [hg]
        constructor
        · rintro ⟨e, he⟩; cases he
        · intro h; exact absurd h hc
      · intro b hb; injection hb with hb; subst hb; exact hn
      · intro b hb _ _
        injection hb with hb; subst hb
        exact ⟨_, List.getElem?_eq_getElem h1, hg⟩
      · rw [hg]; intro h; cases h

theorem get_sample_checked_witness :
    three_samples.get_num_vectors = 3 ∧ three_samples.get_sample 1 = .ok 20 ∧
      (∃ e, three_samples.get_sample 3 = .error e) ∧
      (∃ e, three_samples.get_sample (-1) = .error e) :=
  ⟨rfl, rfl, ((get_sample_checked three_samples 3).1).2 (Or.inr (by decide)),
    ((get_sample_checked three_samples (-1)).1).2 (Or.inl (by decide))⟩

/-! ## CustomKernel: addresses below zero -/

/-- C16. For every `num_cols` the index pair `(0, 1)` is sent to the address `-1`; for
`num_cols = 2`, where both indices are in range, the lookup `compute(0,1)` therefore
falls outside the three entries of `kmatrix`. -/
theorem address_below_zero {R : Type} (M : Nat → Nat → R) :
    (∀ num_cols : Int, CCustomKernel.address num_cols 0 1 = -1) ∧
      (0 : Int) ≤ 0 ∧ (0 : Int) < 2 ∧ (0 : Int) ≤ 1 ∧ (1 : Int) < 2 ∧
      ¬ (0 ≤ CCustomKernel.address 2 0 1) ∧
      (packed_kernel 2 M).kmatrix.length = 2 * (2 + 1) / 2 ∧
      (packed_kernel 2 M).compute 0 1 = .error .out_of_bounds := by
  refine ⟨?_, by decide, by decide, by decide, by decide, by decide, rfl, rfl⟩
  intro n
  simp [CCustomKernel.address]

/-! ## LinearHMM: the two overloads, the derivative at position zero -/

/-- C17. The parameterless `train()` has exactly the outcome of
`train(indizes, n, c)` for `n = get_num_vectors()`, `c` the stored pseudo count and
`indizes = [0, 1, ..., n-1]`: the same `hist` and `log_hist`, or the same failure. -/
theorem train_overloads_agree {R : Type} [Field R] (lg : R → R) (h : CLinearHMM R) :
    (h.features.all_indices.length : Int) = h.features.get_num_vectors ∧
    (∀ i, i < h.features.all_indices.length → h.features.all_indices[i]? = some (i : Int)) ∧
    h.train_all lg =
      h.train lg h.features.all_indices h.features.all_indices.length h.pseudo_count := by
  refine ⟨?_, ?_, train_all_eq_train lg h⟩
  · simp [CWordFeatures.all_indices, CWordFeatures.get_num_vectors]
  · intro i hi
    apply all_indices_get
    simpa [CWordFeatures.all_indices] using hi

/-- C18. On a model with two positions and two symbols and the example `[0, 0]`, the
parameters `0` and `1` (both below `num_params = 4`) have position `0 / 2 = 1 / 2 = 0`,
and the match test `param_num / position` divides by that zero. -/
theorem log_derivative_divides_by_zero {R : Type} [Field R]
    (hist log_hist : Option (List R)) (pseudo_count : R) :
    (two_by_two hist log_hist pseudo_count).num_params = 4 ∧
      cdiv 0 (two_by_two hist log_hist pseudo_count).num_symbols = .ok 0 ∧
      cdiv 1 (two_by_two hist log_hist pseudo_count).num_symbols = .ok 0 ∧
      cdiv 0 0 = .error .div_by_zero ∧ cdiv 1 0 = .error .div_by_zero ∧
      (two_by_two hist log_hist pseudo_count).get_log_derivative 0 0 = .error .div_by_zero ∧
      (two_by_two hist log_hist pseudo_count).get_log_derivative 1 0 = .error .div_by_zero :=
  ⟨rfl, by simp [two_by_two, cdiv],
    by simp [two_by_two, cdiv, show Int.tdiv 1 2 = 0 by decide], rfl, rfl,
    by simp [CLinearHMM.get_log_derivative, two_by_two, CWordFeatures.get_feature_vector,
      rd, rdN, cdiv],
    by simp [CLinearHMM.get_log_derivative, two_by_two, CWordFeatures.get_feature_vector,
      rd, rdN, cdiv, show Int.tdiv 1 2 = 0 by decide]⟩

/-! ## LinearHMM: order of the index list, entries as probabilities -/

/-- C19. For every feature source, every `pseudo_count` and every list of valid indices,
`train(indizes, num_indizes, pseudo_count)` has the same outcome for any permutation of
the index list: the same `hist` and `log_hist` (or the same failure). -/
theorem train_order_independent {R : Type} [Field R] (lg : R → R) (h : CLinearHMM R)
    (l1 l2 : List Int) (pseudo_count : R) (hperm : l1.Perm l2)
    (hv : h.features.valid_indices l1) :
    h.train lg l1 l1.length pseudo_count = h.train lg l2 l2.length pseudo_count := by
  unfold CLinearHMM.train
  rw [count_loop_perm h.features h.num_symbols h.num_params l1 l2 hperm hv]

theorem train_order_independent_witness :
    ([0, 1] : List Int).Perm [1, 0] ∧ two_examples.valid_indices [0, 1] ∧
      ∃ h', (CLinearHMM.create two_examples (1 : ℝ)).train Real.log [0, 1] 2 1 = .ok h' ∧
        (CLinearHMM.create two_examples (1 : ℝ)).train Real.log [1, 0] 2 1 = .ok h' := by
  have hperm : ([0, 1] : List Int).Perm [1, 0] := List.Perm.swap 1 0 []
  obtain ⟨h', hrun⟩ := train_total Real.log (CLinearHMM.create two_examples (1 : ℝ))
    [0, 1] 1 two_examples_in_range two_examples_valid two_examples_span
  have heq := train_order_independent Real.log (CLinearHMM.create two_examples (1 : ℝ))
    [0, 1] [1, 0] 1 hperm two_examples_valid
  exact ⟨hperm, two_examples_valid, h', hrun, heq ▸ hrun⟩

/-- C20. After `train` with `pseudo_count >= 0`, `original_num_symbols >= 1`, a positive
normalising denominator and `base(sym) <= sym < base(sym) + original_num_symbols`
(features in range, valid indices), every entry satisfies
`0 <= hist[pos*num_symbols+sym] <= 1`, and `get_likelihood_example` of an in-range
sequence of length at least one returns a value between `0` and `1`. The call completes
whenever every span lies inside the alphabet. -/
theorem train_entries_are_probabilities {R : Type} [LinearOrderedField R] (lg : R → R)
    (h : CLinearHMM R) (indizes : List Int) (pseudo_count : R)
    (hpc : 0 ≤ pseudo_count) (horig : 1 ≤ h.features.original_num_symbols)
    (hr : h.features.in_range h.sequence_length h.num_symbols)
    (hv : h.features.valid_indices indizes)
    (hbase : ∀ sym, sym < h.num_symbols →
      h.features.base sym ≤ sym ∧
        sym < h.features.base sym + h.features.original_num_symbols)
    (hden : ∀ pos sym, pos < h.sequence_length → sym < h.num_symbols →
      0 < ∑ k in Finset.range h.features.original_num_symbols,
            (count h.features indizes pos (h.features.base sym + k) : R) +
          (h.features.original_num_symbols : R) * pseudo_count) :
    (∀ h', h.train lg indizes indizes.length pseudo_count = .ok h' →
      (∃ hist, h'.hist = some hist ∧
        ∀ pos sym, pos < h.sequence_length → sym < h.num_symbols →
          ∃ x, hist[pos * h.num_symbols + sym]? = some x ∧ 0 ≤ x ∧ x ≤ 1) ∧
      ∀ (v : List Nat) (len : Nat), 1 ≤ len → len ≤ v.length → len ≤ h.sequence_length →
        (∀ pos, pos < len → v.getD pos 0 < h.num_symbols) →
        ∃ y, h'.get_likelihood_example v len = .ok y ∧ 0 ≤ y ∧ y ≤ 1) ∧
    (h.features.span_in_alphabet h.num_symbols →
      ∃ h', h.train lg indizes indizes.length pseudo_count = .ok h') := by
  refine ⟨?_, train_total lg h indizes pseudo_count hr hv⟩
  intro h' hrun
  obtain ⟨r, hr1, hl, hP⟩ :=
    count_selected_spec h.features h.sequence_length h.num_symbols indizes hr hv
  obtain ⟨ih, t, hc, hn, rfl⟩ := (train_eq_ok lg h h' indizes _ pseudo_count).1 hrun
  have hih : ih = r := by
    have := hc.symm.trans hr1
    injection this
  subst hih
  have hnn := count_selected_nonneg _ _ _ _ _ _ hc
  obtain ⟨⟨hl1, _⟩, hf⟩ := normalise_sound lg _ _ _ _ _ _ hn
  have hentry : ∀ pos sym, pos < h.sequence_length → sym < h.num_symbols →
      ∃ x, t.1[pos * h.num_symbols + sym]? = some x ∧ 0 ≤ x ∧ x ≤ 1 := by
    intro pos sym hp hs
    have hspan := span_of_filled lg h.features h.sequence_length h.num_symbols
      pseudo_count ih t hl (by omega) hf
    obtain ⟨_, _, h3, _⟩ := hf _ (flat_index_lt hp hs)
    obtain ⟨hd, hmod⟩ := flat_div_mod (i := pos) hs
    rw [hd, hmod] at h3
    have hden' := hden pos sym hp hs
    rw [← denominator_of_counts h.features h.sequence_length h.num_symbols ih indizes hP
      hspan pos sym hp hs] at hden'
    exact ⟨_, h3, normalised_le_one h.features h.num_symbols pseudo_count ih hnn hpc horig
      pos sym (hbase sym hs) hden'⟩
  refine ⟨⟨t.1, rfl, hentry⟩, ?_⟩
  intro v len h1 hlv hls hsym
  have hfac : ∀ pos, pos < len →
      0 ≤ t.1.getD (pos * h.num_symbols + v.getD pos 0) 0 ∧
        t.1.getD (pos * h.num_symbols + v.getD pos 0) 0 ≤ 1 := by
    intro pos hp
    obtain ⟨x, hx, hx0, hx1⟩ := hentry pos (v.getD pos 0) (by omega) (hsym pos hp)
    rw [List.getD_eq_getElem?_getD, hx]
    exact ⟨hx0, hx1⟩
  refine ⟨∏ pos in Finset.range len, t.1.getD (pos * h.num_symbols + v.getD pos 0) 0,
    ?_, ?_, ?_⟩
  · exact accumulate_spec (fun result x => result * x) t.1 h.num_symbols h.sequence_length
      v len 0
      (fun n => ∏ pos in Finset.range n, t.1.getD (pos * h.num_symbols + v.getD pos 0) 0)
      hl1 h1 hlv hls hsym (by simp) (fun i _ _ => Finset.prod_range_succ _ i)
  · exact Finset.prod_nonneg (fun pos hp => (hfac pos (Finset.mem_range.1 hp)).1)
  · exact Finset.prod_le_one (fun pos hp => (hfac pos (Finset.mem_range.1 hp)).1)
      (fun pos hp => (hfac pos (Finset.mem_range.1 hp)).2)

theorem train_entries_are_probabilities_witness :
    ∃ h' hist, (CLinearHMM.create single_example (1 : ℝ)).train Real.log [0] 1 1 = .ok h' ∧
      h'.hist = some hist ∧
      (∃ x, hist[0]? = some x ∧ 0 ≤ x ∧ x ≤ 1) ∧
      (∃ x, hist[1]? = some x ∧ 0 ≤ x ∧ x ≤ 1) ∧
      ∃ y, h'.get_likelihood_example [0] 1 = .ok y ∧ 0 ≤ y ∧ y ≤ 1 := by
  have hbase : ∀ sym, sym < (CLinearHMM.create single_example (1 : ℝ)).num_symbols →
      (CLinearHMM.create single_example (1 : ℝ)).features.base sym ≤ sym ∧
        sym < (CLinearHMM.create single_example (1 : ℝ)).features.base sym +
          (CLinearHMM.create single_example (1 : ℝ)).features.original_num_symbols := by
    intro sym hs
    have hs2 : sym < 2 := hs
    show sym % 65536 / 2 * 2 ≤ sym ∧ sym < sym % 65536 / 2 * 2 + 2
    omega
  have hden : ∀ pos sym, pos < (CLinearHMM.create single_example (1 : ℝ)).sequence_length →
      sym < (CLinearHMM.create single_example (1 : ℝ)).num_symbols →
      0 < ∑ k in Finset.range
              (CLinearHMM.create single_example (1 : ℝ)).features.original_num_symbols,
            (count (CLinearHMM.create single_example (1 : ℝ)).features [0] pos
              ((CLinearHMM.create single_example (1 : ℝ)).features.base sym + k) : ℝ) +
          ((CLinearHMM.create single_example (1 : ℝ)).features.original_num_symbols : ℝ)
            * 1 := by
    intro pos sym _ _
    have h1 : (0 : ℝ) ≤ ∑ k in Finset.range
        (CLinearHMM.create single_example (1 : ℝ)).features.original_num_symbols,
        (count (CLinearHMM.create single_example (1 : ℝ)).features [0] pos
          ((CLinearHMM.create single_example (1 : ℝ)).features.base sym + k) : ℝ) :=
      Finset.sum_nonneg (fun k _ => Nat.cast_nonneg _)
    have h2 : ((CLinearHMM.create single_example (1 : ℝ)).features.original_num_symbols : ℝ)
        * 1 = 2 := by
      simp [CLinearHMM.create, single_example]
    linarith
  obtain ⟨hsound, htotal⟩ := train_entries_are_probabilities Real.log
    (CLinearHMM.create single_example (1 : ℝ)) [0] 1 zero_le_one (by decide)
    single_example_in_range single_example_valid hbase hden
  obtain ⟨h', hrun⟩ := htotal single_example_span
  obtain ⟨⟨hist, hh, hentry⟩, hlik⟩ := hsound h' hrun
  exact ⟨h', hist, hrun, hh, hentry 0 0 (by decide) (by decide),
    hentry 0 1 (by decide) (by decide),
    hlik [0] 1 (Nat.le_refl 1) (Nat.le_refl 1) (Nat.le_refl 1)
      (by intro pos hp
          have : pos = 0 := by omega
          subst this; decide)⟩

end Shogun
